import Mathlib

/-!
Verification of the templated key/value file store of `pySteve.py`
(`infer_datatype`, `save_dict_as_envfile`, `load_envfile_to_dict`,
`parse_placeholders`, `parse_filename_iterators`).

Python strings are modelled as `List Char` (`PyStr`).  Character classes
(`str.isnumeric`, `str.isalnum`, whitespace) are modelled over ASCII, which
covers every string the claims mention; Unicode-only numerics are outside the
model.  Files and directories are modelled by an explicit `Fs` state; `Path`
values are plain strings and `Path.resolve()` is the identity (all paths used
by the claims are already absolute and symlink-free).  Python exceptions are
modelled with `Except PyError`.
-/

/-- Python strings, modelled as lists of characters. -/
abbrev PyStr := List Char

/-- Coerce a Lean string literal to the `PyStr` model. -/
def pstr (s : String) : PyStr := s.data

/-- ASCII model of `str.isnumeric`: nonempty and all decimal digits. -/
def pyIsNumeric (s : PyStr) : Bool := !s.isEmpty && s.all Char.isDigit

/-- ASCII model of `c.isalnum()` for single characters. -/
def pyCharIsAlnum (c : Char) : Bool := c.isAlpha || c.isDigit

/-- The whitespace characters stripped by Python `str.strip` (ASCII part). -/
def pyIsSpace (c : Char) : Bool :=
  c = ' ' || c = '\t' || c = '\n' || c = '\r' || c = '\x0b' || c = '\x0c'

/-- Python `str.lstrip()`. -/
def pyLstrip (s : PyStr) : PyStr := s.dropWhile pyIsSpace

/-- Python `str.rstrip()`. -/
def pyRstrip (s : PyStr) : PyStr := (s.reverse.dropWhile pyIsSpace).reverse

/-- Python `str.strip()`. -/
def pyStrip (s : PyStr) : PyStr := pyRstrip (pyLstrip s)

/-- Python `sep.join(parts)`. -/
def pyJoin (sep : PyStr) : List PyStr → PyStr
  | [] => []
  | [x] => x
  | x :: y :: rest => x ++ sep ++ pyJoin sep (y :: rest)

/-- Python `str.split(c)` for a single-character separator: `pySplitChar c []`
is `[[]]`, matching `''.split(',') == ['']`. -/
def pySplitChar (c : Char) : PyStr → List PyStr
  | [] => [[]]
  | x :: xs =>
    match pySplitChar c xs with
    | [] => if x = c then [[], []] else [[x]]
    | h :: t => if x = c then [] :: h :: t else (x :: h) :: t

/-- Decimal digit character for `n < 10` (used by the model of `str(int)`). -/
def pyDigitChar (n : Nat) : Char :=
  match n with
  | 0 => '0' | 1 => '1' | 2 => '2' | 3 => '3' | 4 => '4'
  | 5 => '5' | 6 => '6' | 7 => '7' | 8 => '8' | _ => '9'

/-- Numeric value of a digit character. -/
def pyDigitVal (c : Char) : Nat := c.toNat - 48

/-- Decimal digits of a natural number, most significant first (fuelled:
`fuel` bounds the recursion depth, `n + 1` always suffices). -/
def natDigitsFuel : Nat → Nat → PyStr
  | 0, _ => []
  | fuel + 1, n => if n < 10 then [pyDigitChar n] else natDigitsFuel fuel (n / 10) ++ [pyDigitChar (n % 10)]

/-- Model of Python `str(n)` for a natural number. -/
def natRepr (n : Nat) : PyStr := natDigitsFuel (n + 1) n

/-- Model of Python `str(n)` for an integer. -/
def intRepr (n : Int) : PyStr :=
  if n < 0 then '-' :: natRepr n.natAbs else natRepr n.toNat

/-- Model of Python `int(s)` for a string of decimal digits. -/
def pyIntOfDigits (s : PyStr) : Int :=
  Int.ofNat (s.foldl (fun a c => 10 * a + pyDigitVal c) 0)

/-- Model of Python `float(s)` for strings of digits and `.` characters (the
only shape on which `infer_datatype` calls `float`).  The result is the exact
decimal rational; IEEE rounding is not modelled and no claim depends on the
numeric value.  `float` raises (`none`) when the string has two or more dots,
or no digits at all. -/
def pyFloatOfDigitsDots (s : PyStr) : Option Rat :=
  if s.count '.' ≥ 2 then none
  else if (s.filter (fun c => c ≠ '.')).isEmpty then none
  else
    match (pyIntOfDigits (s.takeWhile (fun c => c ≠ '.')), s.dropWhile (fun c => c ≠ '.')) with
    | (ip, []) => some (ip : Rat)
    | (ip, _ :: frac) => some ((ip : Rat) + (pyIntOfDigits frac : Rat) / ((10 : Rat) ^ frac.length))

/-- The four Python value types `infer_datatype` can report. -/
inductive PyType where
  | tint | tfloat | tstr | tlist
  deriving DecidableEq, Repr

/-- Python values stored in the dictionaries of the store.  `vfloat` carries
the exact rational of the decimal literal (IEEE rounding not modelled);
`vnone` stands in for values of unsupported type, which the encoder skips. -/
inductive PyVal where
  | vint (n : Int)
  | vfloat (q : Rat)
  | vstr (s : PyStr)
  | vlist (l : List PyVal)
  | vnone

/-- Python exceptions raised by the functions under study. -/
inductive PyError where
  | valueError
  | fileNotFound
  | keyError (k : PyStr)
  | indexError
  deriving DecidableEq, Repr

/-- Model of Python `str(q)` for a float value: prints the exact decimal
expansion when one of at most 40 fractional digits exists (enough for every
float the claims construct); the IEEE shortest-repr algorithm is not modelled
and no claim depends on it. -/
def floatRepr (q : Rat) : PyStr :=
  match (List.range 41).find? (fun k => (q * (10 : Rat) ^ k).den = 1) with
  | none => []
  | some k =>
    let digits := natRepr (q * (10 : Rat) ^ k).num.natAbs
    let digits := List.replicate (k + 1 - digits.length) '0' ++ digits
    let sign : PyStr := if q < 0 then ['-'] else []
    if k = 0 then sign ++ digits ++ pstr ".0"
    else sign ++ digits.take (digits.length - k) ++ '.' :: digits.drop (digits.length - k)

mutual

/-- Model of Python `repr` for the values (used by `str(list)`).  For strings
it applies CPython's quote choice (single quotes unless the string contains a
single quote and no double quote). -/
def pyReprVal : PyVal → PyStr
  | .vint n => intRepr n
  | .vfloat q => floatRepr q
  | .vstr s =>
    if '\'' ∈ s ∧ '"' ∉ s then '"' :: s ++ ['"'] else '\'' :: s ++ ['\'']
  | .vlist l => '[' :: (pyJoin (pstr ", ") (pyReprList l)) ++ [']']
  | .vnone => pstr "None"

/-- `repr` of each element of a list of values. -/
def pyReprList : List PyVal → List PyStr
  | [] => []
  | x :: xs => pyReprVal x :: pyReprList xs

end

/-- Model of Python `str(v)` (same as `repr` except on strings). -/
def pyStrVal : PyVal → PyStr
  | .vstr s => s
  | v => pyReprVal v

/-- The element-by-element loop of the list branch of `infer_datatype`:
apply `g` left to right, propagating the first raised exception. -/
def exceptMapList {α β : Type} (g : α → Except PyError β) : List α → Except PyError (List β)
  | [] => .ok []
  | x :: xs =>
    match g x with
    | .error e => .error e
    | .ok b =>
      match exceptMapList g xs with
      | .error e => .error e
      | .ok bs => .ok (b :: bs)

/-!  `infer_datatype` (pySteve.py lines 13-36), fuelled so that the mutual
recursion into list elements (always strictly shorter strings) is structural.
`fuel = length + 1` always suffices.  A `.error .valueError` result models a
raised `ValueError` (from `float`); the fuel-exhaustion branch also reports
`.error .valueError` but is unreachable whenever `value.length < fuel`. -/
def inferFuel : Nat → PyStr → Except PyError (PyType × PyVal)
  | 0, _ => .error .valueError
  | fuel + 1, value =>
    if pyIsNumeric (value.filter (fun c => c ≠ '.')) then
      if '.' ∈ value then
        match pyFloatOfDigitsDots value with
        | none => .error .valueError
        | some q => .ok (.tfloat, .vfloat q)
      else .ok (.tint, .vint (pyIntOfDigits value))
    else
      if value.take 1 = ['['] ∧ value.getLast? = some ']' then
        let parts := (pySplitChar ',' ((value.drop 1).dropLast)).map pyStrip
        match exceptMapList (fun v => (inferFuel fuel (pyStrip v)).map (·.2)) parts with
        | .error e => .error e
        | .ok elems => .ok (.tlist, .vlist elems)
      else
        if (value.take 1 = ['"'] ∧ value.getLast? = some '"') ∨
           (value.take 1 = ['\''] ∧ value.getLast? = some '\'') then
          .ok (.tstr, .vstr ((value.drop 1).dropLast))
        else .ok (.tstr, .vstr value)

/-- `infer_datatype` on a value already converted to text (`str(value)` is
applied by the callers of the model). -/
def infer_datatype (value : PyStr) : Except PyError (PyType × PyVal) :=
  inferFuel (value.length + 1) value

/-! ## `parse_placeholders` (pySteve.py lines 177-217) -/

/-- Segment kind reported by `parse_placeholders`. -/
inductive SegKind where
  | static | placeholder
  deriving DecidableEq, Repr

/-- One entry of the `segments` lists of `parse_placeholders` (the Python
dict with keys `order`, `segment`, `type`, `start`, `end`, `len`, and — for
placeholders only — `name`). -/
structure Segment where
  order : Nat
  seg : PyStr
  kind : SegKind
  start : Nat
  stop : Nat
  len : Nat
  name : Option PyStr := none
  deriving DecidableEq, Repr

/-- The loop state of `parse_placeholders`: the running counters plus the
three result lists (`segments`, `placeholders`, `static_segments`). -/
structure PPState where
  order : Nat := 0
  startpos : Nat := 0
  segment : PyStr := []
  segments : List Segment := []
  placeholders : List Segment := []
  static_segments : List Segment := []
  deriving Repr

/-- The result record of `parse_placeholders` (the keys of the returned
dict that the claims mention). -/
structure PPResult where
  original : PyStr
  segments : List Segment
  placeholders : List Segment
  static_segments : List Segment
  deriving Repr

/-- The `if char == ws:` phase of the loop body: emit any nonempty static
segment, then restart segment collection at `pos`. -/
def ppStepOpen (ws : Option Char) (pos : Nat) (char : Char) (st : PPState) : PPState :=
  if some char = ws then
    let st :=
      if st.segment.length > 0 then
        let data : Segment := { order := st.order, seg := st.segment, kind := .static,
                                start := st.startpos, stop := pos, len := pos - st.startpos }
        { st with segments := st.segments ++ [data],
                  static_segments := st.static_segments ++ [data],
                  order := st.order + 1 }
      else st
    { st with startpos := pos, segment := [] }
  else st

/-- "always collect the character for the next segment". -/
def ppStepCollect (char : Char) (st : PPState) : PPState :=
  { st with segment := st.segment ++ [char] }

/-- The `if char == we:` phase: emit the (nonempty) placeholder segment and
restart segment collection at `pos`. -/
def ppStepClose (we : Option Char) (pos : Nat) (char : Char) (st : PPState) : PPState :=
  if some char = we then
    let st :=
      if st.segment.length > 0 then
        let data : Segment := { order := st.order, seg := st.segment, kind := .placeholder,
                                start := st.startpos, stop := pos + 1, len := pos - st.startpos + 1,
                                name := some ((st.segment.drop 1).dropLast) }
        { st with segments := st.segments ++ [data],
                  placeholders := st.placeholders ++ [data],
                  order := st.order + 1 }
      else st
    { st with startpos := pos, segment := [] }
  else st

/-- One iteration of the `for pos, char in enumerate(...)` loop of
`parse_placeholders`.  `ws`/`we` are the one-character slices
`wrappers[:1]` and `wrappers[1:2]` (`none` models the empty slice). -/
def ppStep (ws we : Option Char) (st : PPState) (pc : Nat × Char) : PPState :=
  ppStepClose we pc.1 pc.2 (ppStepCollect pc.2 (ppStepOpen ws pc.1 pc.2 st))

/-- `parse_placeholders(value, wrappers)`.  After the loop, a nonempty
trailing segment is flushed as static using the final loop index
`value.length - 1` (the leaked Python loop variable `pos`). -/
def parse_placeholders (value : PyStr) (wrappers : PyStr := pstr "{}") : PPResult :=
  let ws := (wrappers.take 1).head?
  let we := ((wrappers.drop 1).take 1).head?
  let st := value.enum.foldl (ppStep ws we) {}
  let st :=
    if st.segment.length > 0 then
      let pos := value.length - 1
      let data : Segment := { order := st.order, seg := st.segment, kind := .static,
                              start := st.startpos, stop := pos, len := pos - st.startpos }
      { st with segments := st.segments ++ [data],
                static_segments := st.static_segments ++ [data] }
    else st
  { original := value, segments := st.segments,
    placeholders := st.placeholders, static_segments := st.static_segments }

/-! ## Filesystem and `pathlib.Path` model -/

/-- Filesystem state: existing directories and files (path, content).
Subdirectory nesting beyond one listing level is not needed by the claims. -/
structure Fs where
  dirs : List PyStr := []
  files : List (PyStr × PyStr) := []

/-- `Path.name`: the part of the path after the last `/`. -/
def pathName : PyStr → PyStr
  | [] => []
  | c :: rest =>
    if '/' ∈ rest then pathName rest
    else if c = '/' then rest else c :: rest

/-- `Path.parent` (for the multi-component absolute paths the claims use;
a path with no `/` gets parent `.` as in pathlib). -/
def pathParent (p : PyStr) : PyStr :=
  if (pathName p).length < p.length then p.take (p.length - (pathName p).length - 1)
  else pstr "."

/-- `Path.suffix`, following the CPython rule: the part of the name from its
last dot `i`, provided `0 < i < len(name) - 1`; otherwise empty. -/
def pathSuffix (p : PyStr) : PyStr :=
  let nm := pathName p
  let revIdx := nm.reverse.findIdx? (fun c => c = '.')
  match revIdx with
  | none => []
  | some j =>
    let i := nm.length - 1 - j
    if 0 < i ∧ i < nm.length - 1 then nm.drop i else []

/-- `Path.stem`: the name minus the suffix. -/
def pathStem (p : PyStr) : PyStr :=
  (pathName p).take ((pathName p).length - (pathSuffix p).length)

/-- `parent / name` path join. -/
def pathJoin (parent nm : PyStr) : PyStr := parent ++ '/' :: nm

/-- `Path.exists()`: true for files and directories. -/
def fsExists (fs : Fs) (p : PyStr) : Bool :=
  fs.dirs.contains p || fs.files.any (fun q => q.1 = p)

/-- `Path.is_dir()`. -/
def fsIsDir (fs : Fs) (p : PyStr) : Bool := fs.dirs.contains p

/-- `mkdir(parents=True, exist_ok=True)` on the parent of a target: adds the
directory (single level; the claims' parents are top-level like `/tmp`). -/
def fsMkdir (fs : Fs) (d : PyStr) : Fs :=
  if fs.dirs.contains d then fs else { fs with dirs := d :: fs.dirs }

/-- `open(p, 'w').write(content)`: overwrite or create the file. -/
def fsWrite (fs : Fs) (p content : PyStr) : Fs :=
  { fs with files := (p, content) :: fs.files.filter (fun q => q.1 ≠ p) }

/-- `open(p, 'r').read()`: the content, or `FileNotFoundError`. -/
def fsRead (fs : Fs) (p : PyStr) : Except PyError PyStr :=
  match fs.files.find? (fun q => q.1 = p) with
  | some q => .ok q.2
  | none => .error .fileNotFound

/-- `Path.iterdir()`: entries (files and directories) whose parent is `p`.
The callers immediately sort the result, so listing order is irrelevant. -/
def fsIterdir (fs : Fs) (p : PyStr) : List PyStr :=
  (fs.files.map (fun q => q.1) ++ fs.dirs).filter (fun e => pathParent e = p)

/-- Lexicographic (code-point) order on strings, as Python `sorted` uses for
same-directory `Path` values. -/
def lexLe : PyStr → PyStr → Bool
  | [], _ => true
  | _ :: _, [] => false
  | a :: as, b :: bs => if a = b then lexLe as bs else decide (a < b)

/-- Insertion sort by `lexLe` (total order on strings, so this agrees with
Python's `sorted`). -/
def insertLe (x : PyStr) : List PyStr → List PyStr
  | [] => [x]
  | y :: ys => if lexLe x y then x :: y :: ys else y :: insertLe x ys

/-- Sorted list of strings. -/
def sortLe (l : List PyStr) : List PyStr := l.foldr insertLe []

/-- Python `s.find(sub, start)` on the tail `s[start:]`, reporting the least
absolute match index (`none` for Python's `-1`). -/
def pyFindAux (pat : PyStr) : PyStr → Nat → Option Nat
  | [], i => if pat.isPrefixOf [] then some i else none
  | c :: rest, i => if pat.isPrefixOf (c :: rest) then some i else pyFindAux pat rest (i + 1)

/-- Python `s.find(sub, start)` (with `none` for `-1`): no match is reported
when `start > len(s)`, as in CPython. -/
def pyFind (s pat : PyStr) (start : Nat) : Option Nat :=
  if start > s.length then none
  else (pyFindAux pat (s.drop start) 0).map (fun j => j + start)

/-- Python `sub in s` (substring containment). -/
def pyContains (s pat : PyStr) : Bool := (pyFindAux pat s 0).isSome

/-! ## `parse_filename_iterators` (pySteve.py lines 221-252) -/

/-- Result record of `parse_filename_iterators`. -/
structure IterFiles where
  all_files : List PyStr
  base_files : List PyStr
  iter_files : List PyStr
  deriving DecidableEq, Repr

/-- The condition of the partition loop: the last dot-separated component of
the stem is numeric (`len(fileary) > 0 and fileary[-1].isnumeric()`). -/
def isIterFile (f : PyStr) : Bool :=
  let fileary := pySplitChar '.' (pathStem f)
  decide (0 < fileary.length) && pyIsNumeric (fileary.getLastD [])

/-- `parse_filename_iterators(folderpath)`: resolve the folder (falling back
to its parent), sort the listing minus `.DS_Store`, partition into base and
iteration files, then group each base with the iteration files whose stem
extends its stem. -/
def parse_filename_iterators (fs : Fs) (folderpath : PyStr) : Except PyError IterFiles :=
  let pth := folderpath
  let pth? : Option PyStr :=
    if fsIsDir fs pth then some pth
    else if fsIsDir fs (pathParent pth) then some (pathParent pth) else none
  match pth? with
  | none => .error .valueError
  | some pth =>
    let files := sortLe ((fsIterdir fs pth).filter (fun f => pathStem f ≠ pstr ".DS_Store"))
    let (base_files, iter_files) :=
      files.foldl (fun acc file =>
        if isIterFile file then (acc.1, acc.2 ++ [file]) else (acc.1 ++ [file], acc.2))
        ([], [])
    let all_files :=
      base_files.foldl (fun acc base_file =>
        (acc ++ [base_file]) ++
          iter_files.foldl (fun acc2 iter_file =>
            if (pathStem base_file).isPrefixOf (pathStem iter_file) then acc2 ++ [iter_file]
            else acc2) [])
        []
    .ok { all_files := all_files, base_files := base_files, iter_files := iter_files }

/-! ## Encoder: `save_dict_as_envfile` (pySteve.py lines 40-93) -/

/-- The environment-file dictionaries: insertion-ordered association lists
with unique keys (Python `dict`). -/
abbrev PyDict := List (PyStr × PyVal)

/-- The module constant `docstring_marker = 'EOMsg'`. -/
def docstringMarker : PyStr := pstr "EOMsg"

/-- The module constant `docstring_prefix` (renamed: `$(cat << EOMsg\n`). -/
def docstringPrefix : PyStr := pstr "$(cat << " ++ docstringMarker ++ ['\n']

/-- The module constant `docstring_suffix` (renamed: `\nEOMsg\n)`). -/
def docstringSuffix : PyStr := '\n' :: docstringMarker ++ pstr "\n)"

/-- Key sanitization: keep only alphanumeric and `_` characters. -/
def sanitizeName (nm : PyStr) : PyStr := nm.filter (fun c => pyCharIsAlnum c || c = '_')

/-- One iteration of the row-building loop: `none` when the entry is skipped
(value type not in `[str, int, float, list]`). -/
def encodeEntry (nm : PyStr) (val : PyVal) : Option PyStr :=
  match val with
  | .vnone => none
  | _ =>
    let nm := sanitizeName nm
    let q : PyStr := match val with | .vint _ => [] | .vfloat _ => [] | _ => ['"']
    let v := pyStrVal val
    if '\n' ∈ v then
      let v := if v.take 1 = ['\n'] then v.drop 1 else v
      let v := pyRstrip v
      some (nm ++ '=' :: docstringPrefix ++ v ++ docstringSuffix)
    else some (nm ++ '=' :: q ++ v ++ q)

/-- The encoded line block: rows joined by newlines. -/
def encodeContent (d : PyDict) : PyStr :=
  pyJoin ['\n'] (d.filterMap (fun kv => encodeEntry kv.1 kv.2))

/-- `str.rjust(width, '0')`. -/
def padRjust (w : Nat) (s : PyStr) : PyStr := List.replicate (w - s.length) '0' ++ s

/-- Python slice `s[:-k]` for `k ≥ 0` (`k = 0` yields the empty string,
matching `s[:-0] == s[:0]`). -/
def pySliceToNeg (s : PyStr) (k : Nat) : PyStr := if k = 0 then [] else s.take (s.length - k)

/-- Python slice `s[-k:]` for `k ≥ 0` (`k = 0` yields all of `s`). -/
def pySliceFromNeg (s : PyStr) (k : Nat) : PyStr := if k = 0 then s else s.drop (s.length - k)

/-- Model of `str.format(**d)`: substitute `{name}` fields with `str(d[name])`,
`{{`/`}}` escapes, `KeyError` for missing names, `ValueError` for unmatched
braces.  The format-spec minilanguage (`:`/`!`) is unused by the repository's
templates and is not modelled.  Fuelled; `template.length + 1` suffices. -/
def pyFormatFuel (d : PyDict) : Nat → PyStr → Except PyError PyStr
  | 0, _ => .error .valueError
  | fuel + 1, [] => .ok []
  | fuel + 1, '{' :: rest =>
    if rest.take 1 = ['{'] then (pyFormatFuel d fuel (rest.drop 1)).map (fun t => '{' :: t)
    else
      let nm := rest.takeWhile (fun c => c ≠ '}')
      if '}' ∈ rest then
        match d.find? (fun kv => kv.1 = nm) with
        | some kv => (pyFormatFuel d fuel (rest.drop (nm.length + 1))).map (fun t => pyStrVal kv.2 ++ t)
        | none => .error (.keyError nm)
      else .error .valueError
  | fuel + 1, '}' :: rest =>
    if rest.take 1 = ['}'] then (pyFormatFuel d fuel (rest.drop 1)).map (fun t => '}' :: t)
    else .error .valueError
  | fuel + 1, c :: rest => (pyFormatFuel d fuel rest).map (fun t => c :: t)

/-- `str.format(**d)` at its natural fuel. -/
def pyFormat (template : PyStr) (d : PyDict) : Except PyError PyStr :=
  pyFormatFuel d (template.length + 1) template

/-- The `while pth.exists()` collision loop of `save_dict_as_envfile`.
`pos1` and `extlen` are the values computed from the original path before the
loop; each pass rebuilds the path as
`'{}.{}{}'.format(str(pth)[:pos1], str(iter).rjust(pad,'0'), str(pth)[extlen:])`.
Fuelled; since candidate names never repeat, `fsSize fs + 1` passes suffice to
leave the loop. -/
def saveIterLoop (fs : Fs) (pad pos1 extlen : Nat) : Nat → Nat → PyStr → PyStr
  | 0, _, pth => pth
  | fuel + 1, iter, pth =>
    if fsExists fs pth then
      saveIterLoop fs pad pos1 extlen fuel (iter + 1)
        (pth.take pos1 ++ '.' :: padRjust pad (natRepr (iter + 1)) ++ pySliceFromNeg pth extlen)
    else pth

/-- Number of filesystem entries (used as loop fuel). -/
def fsSize (fs : Fs) : Nat := fs.dirs.length + fs.files.length

/-- `save_dict_as_envfile(save_path, save_dict, iteration_zero_pad)`:
returns the final path (or the raised exception) together with the updated
filesystem. -/
def save_dict_as_envfile (fs : Fs) (save_path : PyStr) (save_dict : PyDict := [])
    (iteration_zero_pad : Nat := 6) : Except PyError PyStr × Fs :=
  if save_path.isEmpty then (.error .valueError, fs)
  else
    match (if !save_dict.isEmpty then pyFormat save_path save_dict else .ok save_path) with
    | .error e => (.error e, fs)
    | .ok pth =>
      let fs1 := fsMkdir fs (pathParent pth)
      let extlen := (pathSuffix pth).length
      let pos1 := (pySliceToNeg pth extlen).length
      let final := saveIterLoop fs1 iteration_zero_pad pos1 extlen (fsSize fs1 + 1) 0 pth
      (.ok final, fsWrite fs1 final (encodeContent save_dict))

/-! ## Resolver + decoder: `load_envfile_to_dict` (pySteve.py lines 97-173) -/

/-- `docstring_prefix.strip()`, the marker that detects a here-document
opening on a line. -/
def heredocHead : PyStr := pyStrip docstringPrefix

/-- The synthetic key injected by `load_envfile_to_dict`. -/
def synthKey : PyStr := pstr "load_envfile_to_dict--FilePath_Selected"

/-- `str.replace(pat, rep)` (all non-overlapping occurrences, left to right).
Fuelled; `s.length` suffices since every pass consumes at least one char. -/
def pyReplaceF (pat rep : PyStr) : Nat → PyStr → PyStr
  | 0, l => l
  | _ + 1, [] => []
  | fuel + 1, c :: rest =>
    if pat.isPrefixOf (c :: rest) then
      rep ++ pyReplaceF pat rep fuel (List.drop (pat.length - 1) rest)
    else c :: pyReplaceF pat rep fuel rest

/-- `s.replace(pat, rep)` at its natural fuel. -/
def pyReplace (s pat rep : PyStr) : PyStr := pyReplaceF pat rep s.length s

/-- Python dict assignment `m[k] = v`: overwrite in place, else append. -/
def dictSet (m : PyDict) (k : PyStr) (v : PyVal) : PyDict :=
  if (m.find? (fun q => q.1 = k)).isSome then m.map (fun q => if q.1 = k then (k, v) else q)
  else m ++ [(k, v)]

/-- Python dict lookup `m[k]` (as an `Option`). -/
def pyLookup (m : PyDict) (k : PyStr) : Option PyVal :=
  (m.find? (fun q => q.1 = k)).map (fun q => q.2)

/-- The inner `while True` of the here-document scan: consume lines until one
containing `::END::`, returning (collected lines, remaining lines).  (On
malformed input with no sentinel the Python loop never terminates; the model
stops at end of input, a case no claim exercises.) -/
def takeUntilEnd : List PyStr → List PyStr × List PyStr
  | [] => ([], [])
  | l :: rest =>
    if pyContains l (pstr "::END::") then ([], rest)
    else
      let (a, b) := takeUntilEnd rest
      (l :: a, b)

/-- The line scan of `load_envfile_to_dict` (lines 155-171): split each line
at the first `=`, strip one layer of double quotes, collect here-document
bodies, infer each value's type, and build the dict.  Fuelled;
`lines.length + 1` suffices since every pass consumes at least one line. -/
def parseLinesGo : Nat → List PyStr → PyDict → Except PyError PyDict
  | 0, _, m => .ok m
  | _ + 1, [], m => .ok m
  | fuel + 1, line :: rest, m =>
    let eqIdx := pyFindAux ['='] line 0
    let name := match eqIdx with | some i => line.take i | none => line.dropLast
    let value := match eqIdx with | some i => line.drop (i + 1) | none => line
    let value :=
      if value.take 1 = ['"'] ∧ value.getLast? = some '"' then (value.drop 1).dropLast else value
    if heredocHead.isPrefixOf value then
      let (body, rest2) := takeUntilEnd rest
      match infer_datatype (pyJoin ['\n'] body) with
      | .error e => .error e
      | .ok tv => parseLinesGo fuel rest2 (dictSet m name tv.2)
    else
      match infer_datatype value with
      | .error e => .error e
      | .ok tv => parseLinesGo fuel rest (dictSet m name tv.2)

/-- Parse a whole file content: replace the here-document closing marker with
the `::END::` sentinel, split into lines, and scan. -/
def parseEnvContent (content : PyStr) : Except PyError PyDict :=
  let lines := pySplitChar '\n' (pyReplace content docstringSuffix (pstr "\n::END::"))
  parseLinesGo (lines.length + 1) lines []

/-- The static-segment filter loop (lines 132-139): `find` each static
segment in order, restarting from `pos if pos==0 else pos-1`, and advancing
`pos` by the segment's recorded `len` field after each match. -/
def keepFileGo (file : PyStr) : Nat → List Segment → Bool
  | _, [] => true
  | pos, seg :: rest =>
    match pyFind file seg.seg (if pos = 0 then 0 else pos - 1) with
    | none => false
    | some p => keepFileGo file (p + seg.len) rest

/-- Whether a candidate file name passes the static-segment filter. -/
def keepFile (file : PyStr) (segs : List Segment) : Bool := keepFileGo file 0 segs

/-- `load_envfile_to_dict(load_path, return_sorted, exact_match_only)`.
The unused `exact_match_only` parameter is kept from the signature. -/
def load_envfile_to_dict (fs : Fs) (load_path : PyStr) (return_sorted : PyStr := pstr "latest")
    (exact_match_only : Bool := false) : Except PyError PyDict :=
  if load_path.isEmpty then .error .valueError
  else
    let pth := load_path
    let pthE : Except PyError PyStr :=
      if fsExists fs pth then .ok pth
      else
        let filename := pathName pth
        if '{' ∉ filename then .error .fileNotFound
        else
          let static_segments := (parse_placeholders filename).static_segments
          match parse_filename_iterators fs (pathParent pth) with
          | .error e => .error e
          | .ok rtnfiles =>
            let valid_files := rtnfiles.all_files.foldl (fun acc file =>
              if keepFile (pathName file) static_segments then acc ++ [pathName file] else acc) []
            if return_sorted.take 3 = pstr "fir" ∨ return_sorted.take 3 = pstr "ear" ∨
               return_sorted.take 3 = pstr "asc" then
              match valid_files.head? with
              | some f => .ok (pathJoin (pathParent pth) f)
              | none => .error .indexError
            else
              match valid_files.getLast? with
              | some f => .ok (pathJoin (pathParent pth) f)
              | none => .error .indexError
    match pthE with
    | .error e => .error e
    | .ok pth =>
      match fsRead fs pth with
      | .error e => .error e
      | .ok content =>
        match parseEnvContent content with
        | .error e => .error e
        | .ok rtn => .ok (dictSet rtn synthKey (.vstr pth))

/-! ## Spec-side definition for the candidate filter (claim C6)

The spec says each subsequent static-segment search starts *at or after the
previous match's end position*.  This definition follows those words (search
start = previous match position + recorded length); it is compared against
the embedded `keepFile`. -/

/-- The filter as the spec describes it: next search starts at the previous
match's end. -/
def specKeepFileGo (file : PyStr) : Nat → List Segment → Bool
  | _, [] => true
  | pos, seg :: rest =>
    match pyFind file seg.seg pos with
    | none => false
    | some p => specKeepFileGo file (p + seg.len) rest

/-- Spec-worded filter at start position 0. -/
def specKeepFile (file : PyStr) (segs : List Segment) : Bool := specKeepFileGo file 0 segs

/-- Declarative matching chain: the file contains every segment's text in
order, each occurrence starting at or after the lower bound `lb`, and the
next lower bound is one position before the current match's end
(`p + len - 1`, saturating at 0). -/
def chainFrom (file : PyStr) : Nat → List Segment → Prop
  | _, [] => True
  | lb, seg :: rest =>
    ∃ p, lb ≤ p ∧ p ≤ file.length ∧ seg.seg.isPrefixOf (file.drop p) ∧
      chainFrom file (p + seg.len - 1) rest

/-! ## Lemmas about `pyFind` -/

theorem pyFindAux_some {pat l : PyStr} {i j : Nat} (h : pyFindAux pat l i = some j) :
    ∃ k, j = i + k ∧ k ≤ l.length ∧ pat.isPrefixOf (l.drop k) ∧
      ∀ k' < k, ¬ pat.isPrefixOf (l.drop k') := by
  induction l generalizing i with
  | nil =>
    by_cases hp : pat.isPrefixOf ([] : PyStr)
    · refine ⟨0, ?_, by simp, by simpa using hp, by omega⟩
      simp [pyFindAux, hp] at h; omega
    · simp [pyFindAux, hp] at h
  | cons c rest ih =>
    by_cases hp : pat.isPrefixOf (c :: rest)
    · simp [pyFindAux, hp] at h
      exact ⟨0, by omega, by simp, by simpa using hp, by omega⟩
    · simp [pyFindAux, hp] at h
      obtain ⟨k, hk, hkle, hpre, hmin⟩ := ih h
      refine ⟨k + 1, by omega, by simp; omega, by simpa using hpre, ?_⟩
      intro k' hk'
      match k' with
      | 0 => simpa using hp
      | k'' + 1 => simpa using hmin k'' (by omega)

theorem pyFindAux_none {pat l : PyStr} {i : Nat} (h : pyFindAux pat l i = none) :
    ∀ k ≤ l.length, ¬ pat.isPrefixOf (l.drop k) := by
  induction l generalizing i with
  | nil =>
    intro k hk
    by_cases hp : pat.isPrefixOf ([] : PyStr)
    · simp [pyFindAux, hp] at h
    · simp only [List.length_nil, Nat.le_zero] at hk
      subst hk
      simpa using hp
  | cons c rest ih =>
    intro k hk
    by_cases hp : pat.isPrefixOf (c :: rest)
    · simp [pyFindAux, hp] at h
    · simp [pyFindAux, hp] at h
      match k with
      | 0 => simpa using hp
      | k' + 1 => simpa using ih h k' (by simpa using hk)

theorem pyFind_some {s pat : PyStr} {start p : Nat} (h : pyFind s pat start = some p) :
    start ≤ p ∧ p ≤ s.length ∧ pat.isPrefixOf (s.drop p) ∧
      ∀ q, start ≤ q → q < p → ¬ pat.isPrefixOf (s.drop q) := by
  unfold pyFind at h
  by_cases hs : start > s.length
  · simp [hs] at h
  · rw [if_neg hs] at h
    simp only [Option.map_eq_some'] at h
    obtain ⟨j, hj, rfl⟩ := h
    obtain ⟨k, rfl, hkle, hpre, hmin⟩ := pyFindAux_some hj
    simp only [List.length_drop] at hkle
    simp only [List.drop_drop] at hpre
    refine ⟨by omega, by omega, ?_, ?_⟩
    · simpa [Nat.add_comm start k] using hpre
    · intro q hq hq2
      have := hmin (q - start) (by omega)
      rw [List.drop_drop] at this
      simpa [Nat.sub_add_cancel hq, Nat.add_sub_cancel' hq] using this

theorem pyFind_none {s pat : PyStr} {start : Nat} (h : pyFind s pat start = none)
    (hs : start ≤ s.length) :
    ∀ q, start ≤ q → q ≤ s.length → ¬ pat.isPrefixOf (s.drop q) := by
  unfold pyFind at h
  simp only [Nat.not_lt.mpr hs, gt_iff_lt, if_false] at h
  simp only [Option.map_eq_none'] at h
  intro q hq hq2
  have := pyFindAux_none h (q - start) (by simp; omega)
  rw [List.drop_drop] at this
  simpa [Nat.sub_add_cancel hq, Nat.add_sub_cancel' hq] using this

theorem chainFrom_mono {file : PyStr} {segs : List Segment} {lb lb' : Nat}
    (hle : lb' ≤ lb) (h : chainFrom file lb segs) : chainFrom file lb' segs := by
  cases segs with
  | nil => trivial
  | cons seg rest =>
    obtain ⟨p, hp1, hp2, hp3, hp4⟩ := h
    exact ⟨p, by omega, hp2, hp3, hp4⟩

theorem keepFileGo_iff_chainFrom (file : PyStr) (segs : List Segment) (pos : Nat) :
    keepFileGo file pos segs = true ↔ chainFrom file (pos - 1) segs := by
  induction segs generalizing pos with
  | nil => simp [keepFileGo, chainFrom]
  | cons seg rest ih =>
    have hstart : (if pos = 0 then 0 else pos - 1) = pos - 1 := by
      cases pos <;> simp
    constructor
    · intro h
      cases hf : pyFind file seg.seg (if pos = 0 then 0 else pos - 1) with
      | none => simp [keepFileGo, hf] at h
      | some p =>
        simp only [keepFileGo, hf] at h
        rw [hstart] at hf
        obtain ⟨h1, h2, h3, _⟩ := pyFind_some hf
        exact ⟨p, h1, h2, h3, (ih (p + seg.len)).mp h⟩
    · rintro ⟨p, hp1, hp2, hp3, hp4⟩
      cases hf : pyFind file seg.seg (if pos = 0 then 0 else pos - 1) with
      | none =>
        rw [hstart] at hf
        exact absurd hp3 (pyFind_none hf (by omega) p hp1 hp2)
      | some p0 =>
        simp only [keepFileGo, hf]
        rw [hstart] at hf
        obtain ⟨h1, h2, h3, hmin⟩ := pyFind_some hf
        have hple : p0 ≤ p := by
          by_contra hlt
          exact hmin p hp1 (by omega) hp3
        exact (ih (p0 + seg.len)).mpr (chainFrom_mono (by omega) hp4)

/-- **C6 (amended).**  The candidate filter of `load_envfile_to_dict` keeps a
file name iff the name contains every static segment's literal text in
left-to-right order, where each subsequent segment search starts *one
position before* the previous match's end (`p + len - 1`), so adjacent
static segments may overlap by one character.  (The claim's "at or after the
previous match's end position" is refuted by `claim_C6_counterexample`.) -/
theorem claim_C6 (file : PyStr) (segs : List Segment) :
    keepFile file segs = true ↔ chainFrom file 0 segs := by
  simpa using keepFileGo_iff_chainFrom file segs 0

/-- **C6 counterexample.**  For the template `ab{X}ba` and candidate name
`aba`, the code's filter keeps the file (the searches overlap by one
character), while the spec-worded filter — each search starting at the
previous match's end — rejects it. -/
theorem claim_C6_counterexample :
    keepFile (pstr "aba") ((parse_placeholders (pstr "ab{X}ba")).static_segments) = true ∧
    specKeepFile (pstr "aba") ((parse_placeholders (pstr "ab{X}ba")).static_segments) = false :=
  ⟨rfl, rfl⟩

/-! ## Claim C3: segments partition the original string -/

/-- The text covered so far by a parser state: all emitted segments plus the
segment under construction. -/
def ppCovered (st : PPState) : PyStr := (st.segments.map Segment.seg).flatten ++ st.segment

theorem ppStepOpen_covered (ws : Option Char) (pos : Nat) (char : Char) (st : PPState) :
    ppCovered (ppStepOpen ws pos char st) = ppCovered st := by
  unfold ppStepOpen ppCovered
  split_ifs with h1 h2
  · simp [List.map_append]
  · have : st.segment = [] := List.length_eq_zero.mp (by omega)
    simp [this]
  · rfl

theorem ppStepCollect_covered (char : Char) (st : PPState) :
    ppCovered (ppStepCollect char st) = ppCovered st ++ [char] := by
  simp [ppStepCollect, ppCovered]

theorem ppStepClose_covered (we : Option Char) (pos : Nat) (char : Char) (st : PPState) :
    ppCovered (ppStepClose we pos char st) = ppCovered st := by
  unfold ppStepClose ppCovered
  split_ifs with h1 h2
  · simp [List.map_append]
  · have : st.segment = [] := List.length_eq_zero.mp (by omega)
    simp [this]
  · rfl

theorem ppStep_covered (ws we : Option Char) (st : PPState) (pc : Nat × Char) :
    ppCovered (ppStep ws we st pc) = ppCovered st ++ [pc.2] := by
  unfold ppStep
  rw [ppStepClose_covered, ppStepCollect_covered, ppStepOpen_covered]

theorem ppFoldl_covered (ws we : Option Char) (l : List (Nat × Char)) (st : PPState) :
    ppCovered (l.foldl (ppStep ws we) st) = ppCovered st ++ l.map Prod.snd := by
  induction l generalizing st with
  | nil => simp
  | cons pc rest ih => simp [List.foldl_cons, ih, ppStep_covered, List.append_assoc]

/-- **C3.**  For every template string and wrapper pair, the segments
returned by `parse_placeholders`, concatenated in order, reconstruct the
original string exactly (so, as pieces of text, they tile the string with
neither overlap nor gap); and on `file_{USER}_{DATE}.sh` the static segments
are `file_`, `_`, `.sh` and the placeholder names are `USER` and `DATE`. -/
theorem claim_C3 :
    (∀ (value wrappers : PyStr),
        (((parse_placeholders value wrappers).segments.map Segment.seg).flatten : PyStr) = value) ∧
    (parse_placeholders (pstr "file_{USER}_{DATE}.sh")).static_segments.map Segment.seg
        = [pstr "file_", pstr "_", pstr ".sh"] ∧
    (parse_placeholders (pstr "file_{USER}_{DATE}.sh")).placeholders.map (fun s => s.name)
        = [some (pstr "USER"), some (pstr "DATE")] := by
  refine ⟨?_, by decide, by decide⟩
  intro value wrappers
  have hfold := ppFoldl_covered ((wrappers.take 1).head?) (((wrappers.drop 1).take 1).head?)
    value.enum {}
  rw [List.enum_map_snd] at hfold
  have hempty : ppCovered {} = ([] : PyStr) := rfl
  rw [hempty, List.nil_append] at hfold
  unfold parse_placeholders
  dsimp only
  split_ifs with h
  · rw [List.map_append, List.flatten_append]
    unfold ppCovered at hfold
    simpa using hfold
  · have hseg := List.length_eq_zero.mp (Nat.eq_zero_of_not_pos h)
    unfold ppCovered at hfold
    rw [hseg, List.append_nil] at hfold
    exact hfold

/-! ## Claim C7: `parse_filename_iterators` partitions and groups -/

theorem foldl_filter_append {α : Type} (p : α → Bool) :
    ∀ (l : List α) (acc : List α),
      l.foldl (fun a x => if p x then a ++ [x] else a) acc = acc ++ l.filter p := by
  intro l
  induction l with
  | nil => simp
  | cons x xs ih =>
    intro acc
    by_cases hp : p x <;> simp [hp, ih, List.filter_cons]

theorem foldl_partition {α : Type} (p : α → Bool) :
    ∀ (l : List α) (acc : List α × List α),
      l.foldl (fun acc f => if p f then (acc.1, acc.2 ++ [f]) else (acc.1 ++ [f], acc.2)) acc
        = (acc.1 ++ l.filter (fun f => !p f), acc.2 ++ l.filter p) := by
  intro l
  induction l with
  | nil => simp
  | cons x xs ih =>
    intro acc
    by_cases hp : p x <;> simp [hp, ih, List.filter_cons]

theorem foldl_group {α : Type} (iters : List α) (q : α → α → Bool) :
    ∀ (bases : List α) (acc : List α),
      bases.foldl (fun acc b =>
          (acc ++ [b]) ++ iters.foldl (fun a it => if q b it then a ++ [it] else a) []) acc
        = acc ++ bases.flatMap (fun b => b :: iters.filter (q b)) := by
  intro bases
  induction bases with
  | nil => simp
  | cons b bs ih =>
    intro acc
    rw [List.foldl_cons, ih]
    simp [foldl_filter_append, List.append_assoc]

/-- The claim's wording of the iteration-file condition: the file stem's last
dot-separated component is purely numeric. -/
def lastDotComponentNumeric (f : PyStr) : Bool :=
  match (pySplitChar '.' (pathStem f)).getLast? with
  | some comp => pyIsNumeric comp
  | none => false

theorem pySplitChar_ne_nil (c : Char) (s : PyStr) : pySplitChar c s ≠ [] := by
  cases s with
  | nil => simp [pySplitChar]
  | cons x xs =>
    simp only [pySplitChar]
    cases h : pySplitChar c xs with
    | nil => split_ifs <;> simp
    | cons hd tl => split_ifs <;> simp

theorem isIterFile_eq (f : PyStr) : isIterFile f = lastDotComponentNumeric f := by
  unfold isIterFile lastDotComponentNumeric
  have hne := pySplitChar_ne_nil '.' (pathStem f)
  have hpos : 0 < (pySplitChar '.' (pathStem f)).length := List.length_pos.mpr hne
  cases h : (pySplitChar '.' (pathStem f)).getLast? with
  | none => exact absurd (List.getLast?_eq_none_iff.mp h) hne
  | some comp => simp [hpos, List.getLastD_eq_getLast?, h]

/-- **C7.**  For every valid directory, `parse_filename_iterators` returns
`iter_files` = exactly the (sorted, `.DS_Store`-less) entries whose stem's
last dot-separated component is purely numeric, `base_files` = all the
others, and `all_files` = each base file immediately followed by every
iteration file whose stem starts with that base's stem, in the directory's
own sort order — so an iteration file is listed under every base whose stem
is a prefix of its stem. -/
theorem claim_C7 (fs : Fs) (dir : PyStr) (hdir : fsIsDir fs dir = true) :
    ∃ r, parse_filename_iterators fs dir = .ok r ∧
      (r.iter_files = (sortLe ((fsIterdir fs dir).filter
          (fun f => pathStem f ≠ pstr ".DS_Store"))).filter lastDotComponentNumeric ∧
       r.base_files = (sortLe ((fsIterdir fs dir).filter
          (fun f => pathStem f ≠ pstr ".DS_Store"))).filter (fun f => !lastDotComponentNumeric f) ∧
       r.all_files = r.base_files.flatMap
          (fun b => b :: r.iter_files.filter
            (fun it => (pathStem b).isPrefixOf (pathStem it)))) := by
  unfold parse_filename_iterators
  simp only [hdir, if_true]
  refine ⟨_, rfl, ?_, ?_, ?_⟩ <;>
    simp only [foldl_partition, foldl_group, List.nil_append] <;>
    simp [funext isIterFile_eq]

/-- Closed witness for `claim_C7` on a concrete directory. -/
theorem claim_C7_witness :
    ∃ r, parse_filename_iterators
        { dirs := [pstr "/data"],
          files := [(pstr "/data/report_Bob.sh", pstr "X=1"),
                    (pstr "/data/report_Steve.sh", pstr "X=2"),
                    (pstr "/data/report_Steve.000001.sh", pstr "X=3")] } (pstr "/data") = .ok r ∧
      (r.iter_files = (sortLe ((fsIterdir
          { dirs := [pstr "/data"],
            files := [(pstr "/data/report_Bob.sh", pstr "X=1"),
                      (pstr "/data/report_Steve.sh", pstr "X=2"),
                      (pstr "/data/report_Steve.000001.sh", pstr "X=3")] } (pstr "/data")).filter
          (fun f => pathStem f ≠ pstr ".DS_Store"))).filter lastDotComponentNumeric ∧
       r.base_files = (sortLe ((fsIterdir
          { dirs := [pstr "/data"],
            files := [(pstr "/data/report_Bob.sh", pstr "X=1"),
                      (pstr "/data/report_Steve.sh", pstr "X=2"),
                      (pstr "/data/report_Steve.000001.sh", pstr "X=3")] } (pstr "/data")).filter
          (fun f => pathStem f ≠ pstr ".DS_Store"))).filter (fun f => !lastDotComponentNumeric f) ∧
       r.all_files = r.base_files.flatMap
          (fun b => b :: r.iter_files.filter
            (fun it => (pathStem b).isPrefixOf (pathStem it)))) :=
  claim_C7 _ _ rfl

/-! ## Claim C2: when `infer_datatype` raises -/

/-- `true` on `.ok`, `false` on a raised exception. -/
def exceptIsOk {α : Type} : Except PyError α → Bool
  | .ok _ => true
  | .error _ => false

/-- The raise condition, stated from the claim's vocabulary: the text with
`.` removed is entirely numeric but the text has two or more `.` characters
(so `float()` raises), directly or — through the list branch — on a
recursively inferred element.  Same fuel convention as `inferFuel`. -/
def badFloatFuel : Nat → PyStr → Bool
  | 0, _ => true
  | fuel + 1, value =>
    if pyIsNumeric (value.filter (fun c => c ≠ '.')) then
      decide (value.count '.' ≥ 2)
    else if value.take 1 = ['['] ∧ value.getLast? = some ']' then
      ((pySplitChar ',' ((value.drop 1).dropLast)).map pyStrip).any
        (fun v => badFloatFuel fuel (pyStrip v))
    else false

/-- The raise condition at its natural fuel. -/
def inferRaises (value : PyStr) : Bool := badFloatFuel (value.length + 1) value

theorem length_dropWhile_le {α : Type} (p : α → Bool) (l : List α) :
    (l.dropWhile p).length ≤ l.length := by
  induction l with
  | nil => simp
  | cons x xs ih =>
    by_cases hp : p x
    · rw [List.dropWhile_cons_of_pos hp]
      simpa using Nat.le_succ_of_le ih
    · rw [List.dropWhile_cons_of_neg (by simpa using hp)]

theorem pyLstrip_length_le (s : PyStr) : (pyLstrip s).length ≤ s.length :=
  length_dropWhile_le pyIsSpace s

theorem pyRstrip_length_le (s : PyStr) : (pyRstrip s).length ≤ s.length := by
  unfold pyRstrip
  rw [List.length_reverse]
  calc (s.reverse.dropWhile pyIsSpace).length ≤ s.reverse.length :=
        length_dropWhile_le pyIsSpace s.reverse
    _ = s.length := List.length_reverse s

theorem pyStrip_length_le (s : PyStr) : (pyStrip s).length ≤ s.length :=
  le_trans (pyRstrip_length_le _) (pyLstrip_length_le s)

theorem pySplitChar_part_length (c : Char) :
    ∀ (s : PyStr), ∀ p ∈ pySplitChar c s, p.length ≤ s.length := by
  intro s
  induction s with
  | nil => intro p hp; simp [pySplitChar] at hp; simp [hp]
  | cons x xs ih =>
    intro p hp
    simp only [pySplitChar] at hp
    cases h : pySplitChar c xs with
    | nil => exact absurd h (pySplitChar_ne_nil c xs)
    | cons hd tl =>
      rw [h] at hp
      split_ifs at hp with hxc
      · rw [List.mem_cons] at hp
        rcases hp with rfl | hp
        · simp
        · have := ih p (by rw [h]; exact hp)
          simpa using Nat.le_succ_of_le this
      · rw [List.mem_cons] at hp
        rcases hp with rfl | hp
        · have : hd.length ≤ xs.length := ih hd (by rw [h]; exact List.mem_cons_self hd tl)
          simp
          omega
        · have := ih p (by rw [h]; exact List.mem_cons_of_mem hd hp)
          simpa using Nat.le_succ_of_le this

theorem exceptIsOk_map {α β : Type} (h : α → β) (e : Except PyError α) :
    exceptIsOk (e.map h) = exceptIsOk e := by
  cases e <;> rfl

theorem exceptMapList_isOk {α β : Type} (g : α → Except PyError β) (l : List α) :
    exceptIsOk (exceptMapList g l) = l.all (fun x => exceptIsOk (g x)) := by
  induction l with
  | nil => rfl
  | cons x xs ih =>
    simp only [exceptMapList, List.all_cons]
    rw [← ih]
    cases hg : g x with
    | error e => simp [exceptIsOk, hg]
    | ok b =>
      cases hm : exceptMapList g xs with
      | error e => simp [exceptIsOk, hg, hm]
      | ok bs => simp [exceptIsOk, hg, hm]

theorem all_not_eq_not_any {α : Type} (p : α → Bool) (l : List α) :
    (l.all fun x => !p x) = !l.any p := by
  induction l with
  | nil => rfl
  | cons x xs ih => simp [List.all_cons, List.any_cons, ih]

theorem pyFloat_none_iff {value : PyStr}
    (hnum : pyIsNumeric (value.filter (fun c => c ≠ '.')) = true) :
    pyFloatOfDigitsDots value = none ↔ value.count '.' ≥ 2 := by
  unfold pyFloatOfDigitsDots
  by_cases h2 : value.count '.' ≥ 2
  · simp [h2]
  · have hne : (value.filter (fun c => c ≠ '.')).isEmpty = false := by
      unfold pyIsNumeric at hnum
      rcases Bool.and_eq_true _ _ |>.mp hnum with ⟨h1, _⟩
      simpa using h1
    rw [if_neg h2, if_neg (by simp only [hne]; exact Bool.false_ne_true)]
    constructor
    · intro h
      split at h
      · exact Option.noConfusion h
      · exact Option.noConfusion h
    · intro h
      exact absurd h h2

theorem list_all_congr {α : Type} {l : List α} {p q : α → Bool}
    (h : ∀ x ∈ l, p x = q x) : l.all p = l.all q := by
  induction l with
  | nil => rfl
  | cons x xs ih =>
    simp only [List.all_cons, h x (List.mem_cons_self x xs)]
    rw [ih (fun y hy => h y (List.mem_cons_of_mem x hy))]

theorem exceptIsOk_match {α β : Type} (e : Except PyError α) (h : α → β) :
    exceptIsOk (match e with
      | .error e => (.error e : Except PyError β)
      | .ok x => .ok (h x)) = exceptIsOk e := by
  cases e <;> rfl

theorem take_one_nonempty {value : PyStr} {c : Char} (h : value.take 1 = [c]) : value ≠ [] := by
  intro hv
  rw [hv] at h
  exact List.noConfusion h

theorem inferFuel_isOk : ∀ (fuel : Nat) (value : PyStr), value.length < fuel →
    exceptIsOk (inferFuel fuel value) = !badFloatFuel fuel value := by
  intro fuel
  induction fuel with
  | zero => intro v h; omega
  | succ f ih =>
    intro value hlen
    simp only [inferFuel, badFloatFuel]
    by_cases hnum : pyIsNumeric (value.filter (fun c => c ≠ '.')) = true
    · rw [if_pos hnum, if_pos hnum]
      by_cases hdot : '.' ∈ value
      · rw [if_pos hdot]
        by_cases h2 : value.count '.' ≥ 2
        · rw [(pyFloat_none_iff hnum).mpr h2]
          simp [exceptIsOk, h2]
        · cases hq : pyFloatOfDigitsDots value with
          | none => exact absurd ((pyFloat_none_iff hnum).mp hq) h2
          | some q => simp [exceptIsOk, h2]
      · rw [if_neg hdot]
        have h0 : value.count '.' = 0 := List.count_eq_zero.mpr hdot
        simp [exceptIsOk, h0]
    · rw [if_neg hnum, if_neg hnum]
      by_cases hbr : value.take 1 = ['['] ∧ value.getLast? = some ']'
      · rw [if_pos hbr, if_pos hbr]
        have hvne : value ≠ [] := take_one_nonempty hbr.1
        have hvpos : 0 < value.length := List.length_pos.mpr hvne
        have hcong : ∀ v ∈ (pySplitChar ',' ((value.drop 1).dropLast)).map pyStrip,
            exceptIsOk ((inferFuel f (pyStrip v)).map (fun x => x.2))
              = !badFloatFuel f (pyStrip v) := by
          intro v hv
          rw [List.mem_map] at hv
          obtain ⟨p0, hp0, rfl⟩ := hv
          have hplen : p0.length ≤ ((value.drop 1).dropLast).length :=
            pySplitChar_part_length ',' _ p0 hp0
          have hmlen : ((value.drop 1).dropLast).length = value.length - 1 - 1 := by
            rw [List.length_dropLast, List.length_drop]
          have hslen : (pyStrip (pyStrip p0)).length < f := by
            have h1 := pyStrip_length_le (pyStrip p0)
            have h2 := pyStrip_length_le p0
            omega
          rw [exceptIsOk_map, ih _ hslen]
        have hall := exceptMapList_isOk
          (fun v => Except.map (fun x => x.2) (inferFuel f (pyStrip v)))
          (List.map pyStrip (pySplitChar ',' ((value.drop 1).dropLast)))
        rw [list_all_congr hcong, all_not_eq_not_any] at hall
        cases hm : exceptMapList (fun v => Except.map (fun x => x.2) (inferFuel f (pyStrip v)))
            (List.map pyStrip (pySplitChar ',' ((value.drop 1).dropLast))) with
        | error e =>
          rw [hm] at hall
          exact hall
        | ok elems =>
          rw [hm] at hall
          exact hall
      · rw [if_neg hbr, if_neg hbr]
        split_ifs <;> simp [exceptIsOk]

/-- **C2 (amended).**  `infer_datatype` returns a `(type, value)` pair — with
ambiguous or malformed input falling through to `String` — *except* when the
text with `.` removed is entirely numeric and the text contains two or more
`.` characters (directly, or recursively in a list element): there `float()`
raises `ValueError` instead of falling through to String.  The first
conjunct characterizes success exactly; the second proves the String
fall-through for input matching no earlier branch.  The claim's "never
raises" is refuted by `claim_C2_counterexample` on `"1.2.3"`. -/
theorem claim_C2 :
    (∀ value : PyStr, exceptIsOk (infer_datatype value) = !inferRaises value) ∧
    (∀ value : PyStr, pyIsNumeric (value.filter (fun c => c ≠ '.')) = false →
      ¬(value.take 1 = ['['] ∧ value.getLast? = some ']') →
      ¬((value.take 1 = ['"'] ∧ value.getLast? = some '"') ∨
        (value.take 1 = ['\''] ∧ value.getLast? = some '\'')) →
      infer_datatype value = .ok (.tstr, .vstr value)) := by
  constructor
  · intro value
    exact inferFuel_isOk (value.length + 1) value (Nat.lt_succ_self _)
  · intro value hnum hbr hq
    simp only [infer_datatype, inferFuel]
    rw [if_neg (by simpa using hnum), if_neg hbr, if_neg hq]

/-- **C2 counterexample.**  `infer_datatype("1.2.3")` raises `ValueError`
(from `float("1.2.3")`) instead of succeeding with a String. -/
theorem claim_C2_counterexample :
    infer_datatype (pstr "1.2.3") = .error .valueError ∧ inferRaises (pstr "1.2.3") = true :=
  ⟨rfl, rfl⟩

/-- Closed witness for the hypothesis-guarded String fall-through of
`claim_C2`. -/
theorem claim_C2_witness :
    infer_datatype (pstr "plain") = .ok (.tstr, .vstr (pstr "plain")) :=
  claim_C2.2 (pstr "plain") (by decide) (by decide) (by decide)

/-! ## Claim C9: missing-key error before any filesystem change -/

/-- **C9.**  If the destination template references a mapping key absent from
the provided non-empty mapping, `save_dict_as_envfile` raises the
`KeyError` produced at substitution time and the filesystem is returned
unchanged: no file is written and no directory is created. -/
theorem claim_C9 (fs : Fs) (template : PyStr) (d : PyDict) (pad : Nat) (k : PyStr)
    (hd : d ≠ []) (hfmt : pyFormat template d = .error (.keyError k)) :
    save_dict_as_envfile fs template d pad = (.error (.keyError k), fs) := by
  have hne : template ≠ [] := by
    intro h
    rw [h] at hfmt
    simp [pyFormat, pyFormatFuel] at hfmt
  unfold save_dict_as_envfile
  rw [if_neg (by simpa [List.isEmpty_iff] using hne)]
  have hdE : d.isEmpty = false := by simpa [List.isEmpty_iff] using hd
  rw [if_pos (by simp [hdE]), hfmt]

/-- Closed witness for `claim_C9`. -/
theorem claim_C9_witness :
    save_dict_as_envfile { dirs := [pstr "/tmp"], files := [] } (pstr "/tmp/file_{DATE}.sh")
        [(pstr "USER", .vstr (pstr "Steve"))] 6
      = (.error (.keyError (pstr "DATE")), { dirs := [pstr "/tmp"], files := [] }) :=
  claim_C9 _ _ _ _ _ (List.cons_ne_nil _ _) rfl

/-! ## Claim C10: empty filter result raises IndexError, not FileNotFoundError -/

theorem foldl_filter_names_nil {α : Type} (p : α → Bool) (g : α → PyStr) :
    ∀ (l : List α), (∀ f ∈ l, p f = false) →
      l.foldl (fun acc f => if p f then acc ++ [g f] else acc) [] = [] := by
  have gen : ∀ (l : List α) (acc : List PyStr), (∀ f ∈ l, p f = false) →
      l.foldl (fun acc f => if p f then acc ++ [g f] else acc) acc = acc := by
    intro l
    induction l with
    | nil => intro acc _; rfl
    | cons x xs ih =>
      intro acc h
      rw [List.foldl_cons, if_neg (by simp [h x (List.mem_cons_self x xs)])]
      exact ih acc (fun f hf => h f (List.mem_cons_of_mem x hf))
  exact fun l h => gen l [] h

/-- **C10.**  First part: when the resolved load path does not exist, the
filename contains a placeholder delimiter, and no directory entry survives
the static-segment filter, `load_envfile_to_dict` fails with the
index-out-of-range error of `valid_files[0]` / `valid_files[-1]` — it neither
returns a mapping nor raises the documented not-found error.  Second part:
the not-found error is raised (for a non-existing path) exactly when the
filename has no placeholder delimiter. -/
theorem claim_C10 :
    (∀ (fs : Fs) (lp rs : PyStr) (emo : Bool) (r : IterFiles),
      lp ≠ [] → fsExists fs lp = false → '{' ∈ pathName lp →
      parse_filename_iterators fs (pathParent lp) = .ok r →
      (∀ f ∈ r.all_files,
        keepFile (pathName f) ((parse_placeholders (pathName lp)).static_segments) = false) →
      load_envfile_to_dict fs lp rs emo = .error .indexError) ∧
    (∀ (fs : Fs) (lp rs : PyStr) (emo : Bool),
      lp ≠ [] → fsExists fs lp = false → '{' ∉ pathName lp →
      load_envfile_to_dict fs lp rs emo = .error .fileNotFound) := by
  constructor
  · intro fs lp rs emo r hne hex hbrace hiter hvalid
    unfold load_envfile_to_dict
    rw [if_neg (by simpa [List.isEmpty_iff] using hne)]
    simp only [hex, Bool.false_eq_true, if_false, hiter]
    rw [if_neg (by simpa using hbrace)]
    rw [foldl_filter_names_nil _ _ _ hvalid]
    split_ifs <;> rfl
  · intro fs lp rs emo hne hex hbrace
    unfold load_envfile_to_dict
    rw [if_neg (by simpa [List.isEmpty_iff] using hne)]
    simp only [hex, Bool.false_eq_true, if_false]
    rw [if_pos hbrace]

/-- Closed witness for `claim_C10` (empty directory: nothing survives the
filter; and a placeholder-free missing path raises the not-found error). -/
theorem claim_C10_witness :
    load_envfile_to_dict { dirs := [pstr "/data"], files := [] }
        (pstr "/data/report_{USER}.sh") (pstr "latest") false = .error .indexError ∧
    load_envfile_to_dict { dirs := [pstr "/data"], files := [] }
        (pstr "/data/report.sh") (pstr "latest") false = .error .fileNotFound :=
  ⟨claim_C10.1 { dirs := [pstr "/data"], files := [] } (pstr "/data/report_{USER}.sh")
      (pstr "latest") false ⟨[], [], []⟩ (by decide) (by decide) (by decide) rfl
      (by decide),
   claim_C10.2 { dirs := [pstr "/data"], files := [] } (pstr "/data/report.sh")
      (pstr "latest") false (by decide) (by decide) (by decide)⟩

/-! ## Claim C4: the iteration-suffix collision loop -/

theorem pathName_suffix (p : PyStr) : pathName p <:+ p := by
  induction p with
  | nil => exact List.suffix_refl []
  | cons c rest ih =>
    unfold pathName
    split_ifs with h1 h2
    · exact ih.trans (List.suffix_cons c rest)
    · exact List.suffix_cons c rest
    · exact List.suffix_refl _

theorem pathSuffix_suffix (p : PyStr) : pathSuffix p <:+ p := by
  unfold pathSuffix
  dsimp only
  cases h : (pathName p).reverse.findIdx? (fun c => c = '.') with
  | none => exact List.nil_suffix
  | some j =>
    dsimp only
    split_ifs with hcond
    · exact (List.drop_suffix _ _).trans (pathName_suffix p)
    · exact List.nil_suffix

theorem suffix_drop_eq {s p : PyStr} (h : s <:+ p) :
    p.drop (p.length - s.length) = s := by
  obtain ⟨t, rfl⟩ := h
  rw [List.length_append, Nat.add_sub_cancel]
  exact List.drop_left t s

/-- The k-th candidate path of the collision loop: the resolved path itself
for `k = 0`, else the path with `.` and the zero-padded iteration number
inserted before the extension. -/
def iterCandidate (pth : PyStr) (pad : Nat) : Nat → PyStr
  | 0 => pth
  | k + 1 =>
    pySliceToNeg pth (pathSuffix pth).length ++
      '.' :: padRjust pad (natRepr (k + 1)) ++ pathSuffix pth

theorem iterCandidate_take {pth : PyStr} {pad : Nat} (hsuf : pathSuffix pth ≠ []) (j : Nat) :
    (iterCandidate pth pad j).take (pySliceToNeg pth (pathSuffix pth).length).length
      = pySliceToNeg pth (pathSuffix pth).length := by
  cases j with
  | zero =>
    show pth.take _ = _
    have hlen : (pySliceToNeg pth (pathSuffix pth).length).length
        = min (pth.length - (pathSuffix pth).length) pth.length := by
      unfold pySliceToNeg
      rw [if_neg (by simpa [List.length_eq_zero] using hsuf)]
      exact List.length_take _ _
    rw [hlen]
    unfold pySliceToNeg
    rw [if_neg (by simpa [List.length_eq_zero] using hsuf)]
    rw [List.take_eq_take]
    omega
  | succ k =>
    simp only [iterCandidate]
    rw [List.append_assoc]
    exact List.take_left _ _

theorem iterCandidate_sliceFrom {pth : PyStr} {pad : Nat} (hsuf : pathSuffix pth ≠ []) (j : Nat) :
    pySliceFromNeg (iterCandidate pth pad j) (pathSuffix pth).length = pathSuffix pth := by
  have hlen0 : (pathSuffix pth).length ≠ 0 := by simpa [List.length_eq_zero] using hsuf
  unfold pySliceFromNeg
  rw [if_neg hlen0]
  cases j with
  | zero => exact suffix_drop_eq (pathSuffix_suffix pth)
  | succ k =>
    refine suffix_drop_eq ?_
    exact ⟨pySliceToNeg pth (pathSuffix pth).length ++ '.' :: padRjust pad (natRepr (k + 1)),
      by simp [iterCandidate]⟩

theorem saveIterLoop_eq {fs : Fs} {pth : PyStr} {pad k : Nat}
    (hsuf : pathSuffix pth ≠ [])
    (hfree : fsExists fs (iterCandidate pth pad k) = false)
    (hocc : ∀ j < k, fsExists fs (iterCandidate pth pad j) = true) :
    ∀ (fuel j : Nat), j ≤ k → k - j < fuel →
      saveIterLoop fs pad (pySliceToNeg pth (pathSuffix pth).length).length
          (pathSuffix pth).length fuel j (iterCandidate pth pad j)
        = iterCandidate pth pad k := by
  intro fuel
  induction fuel with
  | zero => intro j _ h; omega
  | succ f ih =>
    intro j hjk hfuel
    by_cases hj : j = k
    · subst hj
      unfold saveIterLoop
      simp only [hfree, Bool.false_eq_true, if_false]
    · have hjlt : j < k := by omega
      unfold saveIterLoop
      simp only [hocc j hjlt, if_true]
      rw [iterCandidate_take hsuf, iterCandidate_sliceFrom hsuf]
      have hnext : pySliceToNeg pth (pathSuffix pth).length ++
          '.' :: padRjust pad (natRepr (j + 1)) ++ pathSuffix pth
            = iterCandidate pth pad (j + 1) := by
        simp [iterCandidate]
      rw [hnext]
      exact ih (j + 1) (by omega) (by omega)

/-- **C4.**  First part (general): whenever candidate `k` is the first free
name — candidate 0 being the resolved path and candidate `j ≥ 1` carrying the
zero-padded iteration suffix `.NNNNNN` inserted before the extension — the
collision loop of `save_dict_as_envfile` returns exactly candidate `k`:
suffixes are tried in increasing order until a free name is found.  Second
part (concrete): saving twice with the same destination template and mapping
yields two distinct existing files, the second path carrying `.000001`
(default width 6) before the extension. -/
theorem claim_C4 :
    (∀ (fs : Fs) (pth : PyStr) (pad k : Nat),
      pathSuffix pth ≠ [] → k ≤ fsSize fs →
      fsExists fs (iterCandidate pth pad k) = false →
      (∀ j < k, fsExists fs (iterCandidate pth pad j) = true) →
      saveIterLoop fs pad (pySliceToNeg pth (pathSuffix pth).length).length
          (pathSuffix pth).length (fsSize fs + 1) 0 pth
        = iterCandidate pth pad k) ∧
    ((save_dict_as_envfile { dirs := [pstr "/tmp"], files := [] }
        (pstr "/tmp/file_{USER}.sh") [(pstr "USER", .vstr (pstr "Steve"))]).1
      = .ok (pstr "/tmp/file_Steve.sh") ∧
     (save_dict_as_envfile
        (save_dict_as_envfile { dirs := [pstr "/tmp"], files := [] }
          (pstr "/tmp/file_{USER}.sh") [(pstr "USER", .vstr (pstr "Steve"))]).2
        (pstr "/tmp/file_{USER}.sh") [(pstr "USER", .vstr (pstr "Steve"))]).1
      = .ok (pstr "/tmp/file_Steve.000001.sh") ∧
     fsExists (save_dict_as_envfile
        (save_dict_as_envfile { dirs := [pstr "/tmp"], files := [] }
          (pstr "/tmp/file_{USER}.sh") [(pstr "USER", .vstr (pstr "Steve"))]).2
        (pstr "/tmp/file_{USER}.sh") [(pstr "USER", .vstr (pstr "Steve"))]).2
        (pstr "/tmp/file_Steve.sh") = true ∧
     fsExists (save_dict_as_envfile
        (save_dict_as_envfile { dirs := [pstr "/tmp"], files := [] }
          (pstr "/tmp/file_{USER}.sh") [(pstr "USER", .vstr (pstr "Steve"))]).2
        (pstr "/tmp/file_{USER}.sh") [(pstr "USER", .vstr (pstr "Steve"))]).2
        (pstr "/tmp/file_Steve.000001.sh") = true ∧
     pstr "/tmp/file_Steve.sh" ≠ pstr "/tmp/file_Steve.000001.sh") := by
  constructor
  · intro fs pth pad k hsuf hk hfree hocc
    have h0 : iterCandidate pth pad 0 = pth := rfl
    rw [← h0]
    exact saveIterLoop_eq hsuf hfree hocc (fsSize fs + 1) 0 (by omega) (by omega)
  · exact ⟨rfl, rfl, rfl, rfl, by decide⟩

/-- Closed witness for the general part of `claim_C4`: on a filesystem where
the resolved path already exists, the loop returns the first iteration
candidate `/tmp/file_Steve.000001.sh`. -/
theorem claim_C4_witness :
    saveIterLoop { dirs := [pstr "/tmp"], files := [(pstr "/tmp/file_Steve.sh", pstr "")] } 6
        (pySliceToNeg (pstr "/tmp/file_Steve.sh") (pathSuffix (pstr "/tmp/file_Steve.sh")).length).length
        (pathSuffix (pstr "/tmp/file_Steve.sh")).length
        (fsSize { dirs := [pstr "/tmp"], files := [(pstr "/tmp/file_Steve.sh", pstr "")] } + 1) 0
        (pstr "/tmp/file_Steve.sh")
      = iterCandidate (pstr "/tmp/file_Steve.sh") 6 1 :=
  claim_C4.1 { dirs := [pstr "/tmp"], files := [(pstr "/tmp/file_Steve.sh", pstr "")] }
    (pstr "/tmp/file_Steve.sh") 6 1 (by decide) (by decide) (by decide)
    (by intro j hj; interval_cases j; decide)

/-! ## Claim C5: multiline here-document fidelity -/

/-- **C5.**  The string value `"line1\nline2"` is encoded as the
here-document block `A=$(cat << EOMsg\nline1\nline2\nEOMsg\n)` and, after a
full `save_dict_as_envfile` / `load_envfile_to_dict` round trip, decodes back
to exactly `"line1\nline2"`. -/
theorem claim_C5 :
    encodeContent [(pstr "A", .vstr (pstr "line1\nline2"))]
      = pstr "A=$(cat << EOMsg\nline1\nline2\nEOMsg\n)" ∧
    (load_envfile_to_dict
        (save_dict_as_envfile { dirs := [pstr "/tmp"], files := [] } (pstr "/tmp/m.sh")
          [(pstr "A", .vstr (pstr "line1\nline2"))]).2
        (pstr "/tmp/m.sh")).map (fun m => pyLookup m (pstr "A"))
      = .ok (some (.vstr (pstr "line1\nline2"))) :=
  ⟨rfl, rfl⟩

/-! ## Claim C8: pattern resolution picks the latest grouped candidate -/

/-- The directory of the pattern-resolution scenario: exactly
`report_Bob.sh`, `report_Steve.sh`, `report_Steve.000001.sh`. -/
def fsScenario8 : Fs :=
  { dirs := [pstr "/data"],
    files := [(pstr "/data/report_Bob.sh", pstr "X=1"),
              (pstr "/data/report_Steve.sh", pstr "X=2"),
              (pstr "/data/report_Steve.000001.sh", pstr "X=3")] }

/-- **C8.**  With exactly `report_Bob.sh`, `report_Steve.sh` and
`report_Steve.000001.sh` in the directory, resolving the non-existing
template `report_{USER}.sh` with `return_sorted='latest'` selects and reads
`report_Steve.000001.sh`: the grouped ordering puts the Steve iteration last,
the synthetic key reports that path, and the returned mapping holds that
file's content (`X=3`). -/
theorem claim_C8 :
    (parse_filename_iterators fsScenario8 (pstr "/data")).map (fun r => r.all_files)
      = .ok [pstr "/data/report_Bob.sh", pstr "/data/report_Steve.sh",
             pstr "/data/report_Steve.000001.sh"] ∧
    (load_envfile_to_dict fsScenario8 (pstr "/data/report_{USER}.sh") (pstr "latest")).map
        (fun m => pyLookup m synthKey)
      = .ok (some (.vstr (pstr "/data/report_Steve.000001.sh"))) ∧
    (load_envfile_to_dict fsScenario8 (pstr "/data/report_{USER}.sh") (pstr "latest")).map
        (fun m => pyLookup m (pstr "X"))
      = .ok (some (.vint 3)) :=
  ⟨rfl, rfl, rfl⟩

/-! ## Claim C1: groundwork — decimal representation lemmas -/

theorem pyDigitChar_isDigit {n : Nat} (h : n < 10) : (pyDigitChar n).isDigit = true := by
  interval_cases n <;> rfl

theorem pyDigitVal_digitChar {n : Nat} (h : n < 10) : pyDigitVal (pyDigitChar n) = n := by
  interval_cases n <;> rfl

theorem natDigitsFuel_ne_nil {fuel n : Nat} (h : n < fuel) : natDigitsFuel fuel n ≠ [] := by
  cases fuel with
  | zero => omega
  | succ f =>
    unfold natDigitsFuel
    split_ifs <;> simp

theorem natDigitsFuel_all_digits : ∀ (fuel n : Nat), ∀ c ∈ natDigitsFuel fuel n,
    c.isDigit = true := by
  intro fuel
  induction fuel with
  | zero => intro n c hc; simp [natDigitsFuel] at hc
  | succ f ih =>
    intro n c hc
    unfold natDigitsFuel at hc
    split_ifs at hc with h10
    · rw [List.mem_singleton] at hc
      exact hc ▸ pyDigitChar_isDigit h10
    · rw [List.mem_append] at hc
      rcases hc with hc | hc
      · exact ih (n / 10) c hc
      · rw [List.mem_singleton] at hc
        exact hc ▸ pyDigitChar_isDigit (Nat.mod_lt n (by omega))

theorem natRepr_ne_nil (n : Nat) : natRepr n ≠ [] :=
  natDigitsFuel_ne_nil (Nat.lt_succ_self n)

theorem natRepr_all_digits (n : Nat) : ∀ c ∈ natRepr n, c.isDigit = true :=
  natDigitsFuel_all_digits (n + 1) n

/-- Parsing back the digits of `n` recovers `n` (stated over the `Nat`
accumulator of `pyIntOfDigits`). -/
theorem natDigitsFuel_parse : ∀ (fuel n acc : Nat), n < fuel →
    (natDigitsFuel fuel n).foldl (fun a c => 10 * a + pyDigitVal c) acc
      = acc * 10 ^ (natDigitsFuel fuel n).length + n := by
  intro fuel
  induction fuel with
  | zero => intro n acc h; omega
  | succ f ih =>
    intro n acc h
    unfold natDigitsFuel
    split_ifs with h10
    · simp [List.foldl_cons, pyDigitVal_digitChar h10]
      ring
    · rw [List.foldl_append]
      have hdiv : n / 10 < f := by omega
      rw [ih (n / 10) acc hdiv]
      have hmod : pyDigitVal (pyDigitChar (n % 10)) = n % 10 :=
        pyDigitVal_digitChar (Nat.mod_lt n (by omega))
      simp only [List.foldl_cons, List.foldl_nil, hmod, List.length_append,
        List.length_singleton, pow_succ]
      calc 10 * (acc * 10 ^ (natDigitsFuel f (n / 10)).length + n / 10) + n % 10
          = acc * (10 ^ (natDigitsFuel f (n / 10)).length * 10) + (10 * (n / 10) + n % 10) := by
            ring
        _ = acc * (10 ^ (natDigitsFuel f (n / 10)).length * 10) + n := by
            rw [Nat.div_add_mod]

theorem pyIntOfDigits_natRepr (n : Nat) : pyIntOfDigits (natRepr n) = Int.ofNat n := by
  unfold pyIntOfDigits natRepr
  rw [natDigitsFuel_parse (n + 1) n 0 (Nat.lt_succ_self n)]
  simp

theorem digit_ne_special {c : Char} (h : c.isDigit = true) :
    c ≠ '.' ∧ c ≠ '"' ∧ c ≠ '\'' ∧ c ≠ '\n' ∧ c ≠ '[' ∧ c ≠ '$' ∧ c ≠ ',' ∧ c ≠ ' ' := by
  refine ⟨?_, ?_, ?_, ?_, ?_, ?_, ?_, ?_⟩ <;> (intro hc; rw [hc] at h; exact Bool.noConfusion h)

theorem filter_ne_dot_of_digits {s : PyStr} (h : ∀ c ∈ s, c.isDigit = true) :
    s.filter (fun c => c ≠ '.') = s := by
  rw [List.filter_eq_self]
  intro c hc
  simpa using (digit_ne_special (h c hc)).1

theorem pyIsNumeric_of_digits {s : PyStr} (hne : s ≠ []) (h : ∀ c ∈ s, c.isDigit = true) :
    pyIsNumeric s = true := by
  unfold pyIsNumeric
  rw [Bool.and_eq_true]
  constructor
  · simpa [List.isEmpty_iff] using hne
  · rw [List.all_eq_true]
    exact h

/-- The integer branch of `infer_datatype` on a digit string: any positive
fuel suffices, the numeric branch does not recurse. -/
theorem inferFuel_natRepr {fuel : Nat} (hf : 0 < fuel) (n : Nat) :
    inferFuel fuel (natRepr n) = .ok (.tint, .vint (Int.ofNat n)) := by
  cases fuel with
  | zero => omega
  | succ f =>
    unfold inferFuel
    rw [if_pos (by
      rw [filter_ne_dot_of_digits (natRepr_all_digits n)]
      exact pyIsNumeric_of_digits (natRepr_ne_nil n) (natRepr_all_digits n))]
    rw [if_neg (fun hdot => by
      simpa using (digit_ne_special (natRepr_all_digits n '.' hdot)).1)]
    rw [pyIntOfDigits_natRepr]

theorem getLast?_append_singleton {α : Type} (l : List α) (x : α) :
    (l ++ [x]).getLast? = some x := by
  induction l with
  | nil => rfl
  | cons a t ih =>
    rw [List.cons_append, List.getLast?_cons]
    simpa [List.getLastD_eq_getLast?] using ih

theorem dropLast_append_singleton {α : Type} (l : List α) (x : α) :
    (l ++ [x]).dropLast = l := by
  simp

/-! ## Claim C1: the safe fragment and the encoded line shape -/

/-- Keys already in sanitized form: alphanumeric or underscore only
(ASCII model). -/
def SafeKey (k : PyStr) : Bool := k.all (fun c => pyCharIsAlnum c || c = '_')

/-- Values for which the round trip is exact: non-negative integers,
strings that the decoder's quote stripping and type inference map to
themselves (single-line, not starting a here-document marker), and nonempty
lists of non-negative integers. -/
def SafeVal : PyVal → Prop
  | .vint n => 0 ≤ n
  | .vstr s => '\n' ∉ s ∧ ¬ heredocHead.isPrefixOf s = true ∧
      infer_datatype s = .ok (.tstr, .vstr s)
  | .vlist l => l ≠ [] ∧ ∀ x ∈ l, ∃ n : Int, x = .vint n ∧ 0 ≤ n
  | _ => False

/-- The text after `KEY=` on the encoded line, per value kind. -/
def bodyOf : PyVal → PyStr
  | .vint n => intRepr n
  | .vstr s => '"' :: s ++ ['"']
  | .vlist l => '"' :: pyStrVal (.vlist l) ++ ['"']
  | v => pyStrVal v

theorem heredocHead_eq : heredocHead = pstr "$(cat << EOMsg" := rfl

theorem safeKey_no_eq {k : PyStr} (hk : SafeKey k = true) : '=' ∉ k := by
  intro hmem
  unfold SafeKey at hk
  rw [List.all_eq_true] at hk
  have := hk '=' hmem
  simp [pyCharIsAlnum, Char.isAlpha, Char.isUpper, Char.isLower, Char.isDigit] at this

theorem safeKey_ne_synthKey {k : PyStr} (hk : SafeKey k = true) : k ≠ synthKey := by
  intro hkeq
  rw [hkeq] at hk
  exact absurd hk (by decide)

theorem pyReprVal_vint (n : Int) : pyReprVal (.vint n) = intRepr n := rfl

theorem pyStrVal_vlist (l : List PyVal) :
    pyStrVal (.vlist l) = '[' :: pyJoin (pstr ", ") (pyReprList l) ++ [']'] := rfl

theorem pyStrVal_vlist_chars {l : List PyVal} (hl : ∀ x ∈ l, ∃ n : Int, x = .vint n ∧ 0 ≤ n) :
    ∀ c ∈ pyStrVal (.vlist l), c.isDigit = true ∨ c = '[' ∨ c = ']' ∨ c = ',' ∨ c = ' ' := by
  have hjoin : ∀ (m : List PyVal), (∀ x ∈ m, ∃ n : Int, x = .vint n ∧ 0 ≤ n) →
      ∀ c ∈ pyJoin (pstr ", ") (pyReprList m), c.isDigit = true ∨ c = ',' ∨ c = ' ' := by
    intro m
    induction m with
    | nil => intro _ c hc; simp [pyReprList, pyJoin] at hc
    | cons x xs ih =>
      intro hm c hc
      obtain ⟨n, rfl, hn⟩ := hm x (List.mem_cons_self x xs)
      have hx : ∀ d ∈ pyReprVal (.vint n), d.isDigit = true := by
        intro d hd
        rw [pyReprVal_vint] at hd
        unfold intRepr at hd
        rw [if_neg (by omega)] at hd
        exact natRepr_all_digits n.toNat d hd
      cases xs with
      | nil =>
        simp only [pyReprList, pyJoin] at hc
        exact Or.inl (hx c hc)
      | cons y ys =>
        simp only [pyReprList, pyJoin] at hc
        rw [List.append_assoc, List.mem_append] at hc
        rcases hc with hc | hc
        · exact Or.inl (hx c hc)
        · rw [List.mem_append] at hc
          rcases hc with hc | hc
          · have hsep : pstr ", " = [',', ' '] := rfl
            rw [hsep, List.mem_cons, List.mem_singleton] at hc
            rcases hc with rfl | rfl
            · exact Or.inr (Or.inl rfl)
            · exact Or.inr (Or.inr rfl)
          · exact ih (fun z hz => hm z (List.mem_cons_of_mem _ hz)) c hc
  intro c hc
  rw [pyStrVal_vlist] at hc
  rw [List.mem_append] at hc
  rcases hc with hc | hc
  · rw [List.mem_cons] at hc
    rcases hc with rfl | hc
    · exact Or.inr (Or.inl rfl)
    · rcases hjoin l hl c hc with h | h | h
      · exact Or.inl h
      · exact Or.inr (Or.inr (Or.inr (Or.inl h)))
      · exact Or.inr (Or.inr (Or.inr (Or.inr h)))
  · rw [List.mem_singleton] at hc
    exact Or.inr (Or.inr (Or.inl hc))

theorem sanitizeName_safe {k : PyStr} (hk : SafeKey k = true) : sanitizeName k = k := by
  unfold sanitizeName
  rw [List.filter_eq_self]
  unfold SafeKey at hk
  rw [List.all_eq_true] at hk
  exact hk

theorem safeVal_body_no_newline {v : PyVal} (hv : SafeVal v) : '\n' ∉ pyStrVal v := by
  cases v with
  | vint n =>
    intro hmem
    unfold pyStrVal pyReprVal intRepr at hmem
    rw [if_neg (by exact not_lt.mpr hv)] at hmem
    exact absurd (natRepr_all_digits _ _ hmem) (by decide)
  | vstr s => exact hv.1
  | vlist l =>
    intro hmem
    rcases pyStrVal_vlist_chars hv.2 '\n' hmem with h | h | h | h | h
    · exact absurd h (by decide)
    all_goals exact absurd h (by decide)
  | vfloat q => exact absurd hv (by simp [SafeVal])
  | vnone => exact absurd hv (by simp [SafeVal])

theorem encodeEntry_safe {k : PyStr} {v : PyVal} (hk : SafeKey k = true) (hv : SafeVal v) :
    encodeEntry k v = some (k ++ '=' :: bodyOf v) := by
  have hnl := safeVal_body_no_newline hv
  cases v with
  | vint n =>
    simp only [encodeEntry]
    rw [if_neg hnl, sanitizeName_safe hk]
    simp [bodyOf, pyStrVal, pyReprVal_vint]
  | vstr s =>
    simp only [encodeEntry]
    rw [if_neg hnl, sanitizeName_safe hk]
    simp [bodyOf, pyStrVal]
  | vlist l =>
    simp only [encodeEntry]
    rw [if_neg hnl, sanitizeName_safe hk]
    simp [bodyOf]
  | vfloat q => exact absurd hv (by simp [SafeVal])
  | vnone => exact absurd hv (by simp [SafeVal])

/-! ## Claim C1: the sentinel replacement is a no-op on safe content -/

theorem pyReplaceF_no_match {pat rep : PyStr} :
    ∀ (l : PyStr), (∀ t, t <:+ l → ¬ pat.isPrefixOf t = true) →
      ∀ fuel, pyReplaceF pat rep fuel l = l := by
  intro l
  induction l with
  | nil =>
    intro _ fuel
    cases fuel <;> rfl
  | cons c rest ih =>
    intro h fuel
    cases fuel with
    | zero => rfl
    | succ f =>
      unfold pyReplaceF
      rw [if_neg (h (c :: rest) (List.suffix_refl _))]
      rw [ih (fun t ht => h t (ht.trans (List.suffix_cons c rest))) f]

theorem isPrefixOf_mem {pat t : PyStr} (h : pat.isPrefixOf t = true) :
    ∀ c ∈ pat, c ∈ t := by
  rw [List.isPrefixOf_iff_prefix] at h
  exact fun c hc => h.subset hc

theorem prefix_line_align {q r : PyStr} :
    ∀ (p1 l1 : PyStr), '\n' ∉ p1 → '\n' ∉ l1 →
      (p1 ++ '\n' :: q).isPrefixOf (l1 ++ '\n' :: r) = true →
      p1 = l1 ∧ q.isPrefixOf r = true := by
  intro p1
  induction p1 with
  | nil =>
    intro l1 _ hl1 h
    cases l1 with
    | nil =>
      simp only [List.nil_append, List.isPrefixOf] at h
      rw [Bool.and_eq_true] at h
      exact ⟨rfl, h.2⟩
    | cons a l1t =>
      simp only [List.nil_append, List.cons_append, List.isPrefixOf] at h
      rw [Bool.and_eq_true] at h
      have : '\n' = a := by simpa using h.1
      exact absurd (this ▸ List.mem_cons_self a l1t) hl1
  | cons b p1t ih =>
    intro l1 hp1 hl1 h
    cases l1 with
    | nil =>
      simp only [List.cons_append, List.nil_append, List.isPrefixOf] at h
      rw [Bool.and_eq_true] at h
      have : b = '\n' := by simpa using h.1
      exact absurd (this ▸ List.mem_cons_self b p1t) hp1
    | cons a l1t =>
      simp only [List.cons_append, List.isPrefixOf] at h
      rw [Bool.and_eq_true] at h
      have hba : b = a := by simpa using h.1
      have hrec := ih l1t (fun hm => hp1 (List.mem_cons_of_mem b hm))
        (fun hm => hl1 (List.mem_cons_of_mem a hm)) h.2
      exact ⟨by rw [hba, hrec.1], hrec.2⟩

theorem docstringSuffix_shape :
    docstringSuffix = '\n' :: (pstr "EOMsg" ++ '\n' :: [')']) := rfl

theorem no_marker_prefix_at (C : PyStr)
    (hC : ∀ t, t <:+ ('\n' :: C) → ¬ docstringSuffix.isPrefixOf t = true) :
    ∀ (l : PyStr), '\n' ∉ l →
      ∀ t, t <:+ (l ++ '\n' :: C) → ¬ docstringSuffix.isPrefixOf t = true := by
  intro l
  induction l with
  | nil => intro _ t ht; exact hC t (by simpa using ht)
  | cons c lt ih =>
    intro hnl t ht
    rw [List.cons_append, List.suffix_cons_iff] at ht
    rcases ht with rfl | ht
    · intro hpre
      have : '\n' ∈ c :: (lt ++ '\n' :: C) :=
        isPrefixOf_mem hpre '\n' (by rw [docstringSuffix_shape]; exact List.mem_cons_self _ _)
      rw [List.mem_cons] at this
      rcases this with h | h
      · exact hnl (h ▸ List.mem_cons_self c lt)
      · rw [List.mem_append] at h
        rcases h with h | h
        · exact hnl (List.mem_cons_of_mem c h)
        · rw [List.mem_cons] at h
          rcases h with h | h
          · -- '\n' = '\n' is fine: the whole-suffix case needs the head test instead
            exact absurd hpre (by
              rw [docstringSuffix_shape]
              simp only [List.isPrefixOf]
              intro hand
              rw [Bool.and_eq_true] at hand
              have : '\n' = c := by simpa using hand.1
              exact hnl (this ▸ List.mem_cons_self c lt))
          · exact absurd hpre (by
              rw [docstringSuffix_shape]
              simp only [List.isPrefixOf]
              intro hand
              rw [Bool.and_eq_true] at hand
              have : '\n' = c := by simpa using hand.1
              exact hnl (this ▸ List.mem_cons_self c lt))
    · exact ih (fun hm => hnl (List.mem_cons_of_mem c hm)) t ht

theorem content_no_marker :
    ∀ (lines : List PyStr), (∀ x ∈ lines, '\n' ∉ x) → (∀ x ∈ lines, x ≠ pstr "EOMsg") →
      ∀ t, t <:+ pyJoin ['\n'] lines → ¬ docstringSuffix.isPrefixOf t = true := by
  intro lines
  induction lines with
  | nil =>
    intro _ _ t ht
    have : t = [] := List.suffix_nil.mp (by simpa [pyJoin] using ht)
    subst this
    rw [docstringSuffix_shape]
    simp [List.isPrefixOf]
  | cons l rest ih =>
    intro hnl hEO t ht
    cases rest with
    | nil =>
      intro hpre
      have hsub : '\n' ∈ t :=
        isPrefixOf_mem hpre '\n' (by rw [docstringSuffix_shape]; exact List.mem_cons_self _ _)
      simp only [pyJoin] at ht
      exact hnl l (List.mem_cons_self l []) (ht.subset hsub)
    | cons l2 rest2 =>
      have hjoin : pyJoin ['\n'] (l :: l2 :: rest2)
          = l ++ '\n' :: pyJoin ['\n'] (l2 :: rest2) := by
        simp [pyJoin]
      rw [hjoin] at ht
      refine no_marker_prefix_at (pyJoin ['\n'] (l2 :: rest2)) ?_ l
        (hnl l (List.mem_cons_self l _)) t ht
      intro u hu
      rw [List.suffix_cons_iff] at hu
      rcases hu with rfl | hu
      · -- u = '\n' :: join (l2 :: rest2): alignment with the first subsequent line
        intro hpre
        rw [docstringSuffix_shape] at hpre
        simp only [List.isPrefixOf] at hpre
        rw [Bool.and_eq_true] at hpre
        have hpre2 := hpre.2
        cases rest2 with
        | nil =>
          simp only [pyJoin] at hpre2
          have : '\n' ∈ l2 := isPrefixOf_mem hpre2 '\n'
            (by rw [List.mem_append]; right; exact List.mem_cons_self _ _)
          exact hnl l2 (List.mem_cons_of_mem l (List.mem_cons_self l2 _)) this
        | cons l3 rest3 =>
          have hjoin2 : pyJoin ['\n'] (l2 :: l3 :: rest3)
              = l2 ++ '\n' :: pyJoin ['\n'] (l3 :: rest3) := by
            simp [pyJoin]
          rw [hjoin2] at hpre2
          have halign := prefix_line_align (pstr "EOMsg") l2 (by decide)
            (hnl l2 (List.mem_cons_of_mem l (List.mem_cons_self l2 _))) hpre2
          exact hEO l2 (List.mem_cons_of_mem l (List.mem_cons_self l2 _)) halign.1.symm
      · exact ih (fun x hx => hnl x (List.mem_cons_of_mem l hx))
          (fun x hx => hEO x (List.mem_cons_of_mem l hx)) u hu

theorem pyReplace_noop (lines : List PyStr)
    (hnl : ∀ x ∈ lines, '\n' ∉ x) (hEO : ∀ x ∈ lines, x ≠ pstr "EOMsg") :
    pyReplace (pyJoin ['\n'] lines) docstringSuffix (pstr "\n::END::")
      = pyJoin ['\n'] lines :=
  pyReplaceF_no_match _ (content_no_marker lines hnl hEO) _

/-! ## Claim C1: splitting the joined lines -/

theorem pySplitChar_no_sep {c : Char} : ∀ {l : PyStr}, c ∉ l → pySplitChar c l = [l] := by
  intro l
  induction l with
  | nil => intro _; rfl
  | cons x xs ih =>
    intro h
    have hx : x ≠ c := fun hxc => h (hxc ▸ List.mem_cons_self x xs)
    have hxs : c ∉ xs := fun hm => h (List.mem_cons_of_mem x hm)
    simp only [pySplitChar, ih hxs]
    rw [if_neg hx]

theorem pySplitChar_cons (c x : Char) (xs : PyStr) :
    pySplitChar c (x :: xs)
      = match pySplitChar c xs with
        | [] => if x = c then [[], []] else [[x]]
        | h :: t => if x = c then [] :: h :: t else (x :: h) :: t := rfl

theorem pySplitChar_append_cons {c : Char} {r : PyStr} :
    ∀ {l : PyStr}, c ∉ l → pySplitChar c (l ++ c :: r) = l :: pySplitChar c r := by
  intro l
  induction l with
  | nil =>
    intro _
    rw [List.nil_append, pySplitChar_cons]
    cases h : pySplitChar c r with
    | nil => exact absurd h (pySplitChar_ne_nil c r)
    | cons hd tl => simp
  | cons x xs ih =>
    intro h
    have hx : x ≠ c := fun hxc => h (hxc ▸ List.mem_cons_self x xs)
    have hxs : c ∉ xs := fun hm => h (List.mem_cons_of_mem x hm)
    rw [List.cons_append, pySplitChar_cons, ih hxs]
    dsimp only
    rw [if_neg hx]

theorem pySplitChar_join {c : Char} :
    ∀ (lines : List PyStr), lines ≠ [] → (∀ x ∈ lines, c ∉ x) →
      pySplitChar c (pyJoin [c] lines) = lines := by
  intro lines
  induction lines with
  | nil => intro h; exact absurd rfl h
  | cons l rest ih =>
    intro _ h
    cases rest with
    | nil => exact pySplitChar_no_sep (h l (List.mem_cons_self l []))
    | cons l2 rest2 =>
      have hjoin : pyJoin [c] (l :: l2 :: rest2) = l ++ c :: pyJoin [c] (l2 :: rest2) := by
        simp [pyJoin]
      rw [hjoin, pySplitChar_append_cons (h l (List.mem_cons_self l _))]
      rw [ih (by simp) (fun x hx => h x (List.mem_cons_of_mem l hx))]

/-! ## Claim C1: decoding each encoded line -/

theorem pyFindAux_key {k : PyStr} (hk : '=' ∉ k) (b : PyStr) :
    ∀ i, pyFindAux ['='] (k ++ '=' :: b) i = some (i + k.length) := by
  induction k with
  | nil =>
    intro i
    simp [pyFindAux, List.isPrefixOf]
  | cons c kt ih =>
    intro i
    have hc : c ≠ '=' := fun h => hk (h ▸ List.mem_cons_self c kt)
    rw [List.cons_append]
    unfold pyFindAux
    rw [if_neg (by simp [List.isPrefixOf]; intro h; exact absurd h.symm hc)]
    rw [ih (fun hm => hk (List.mem_cons_of_mem c hm)) (i + 1)]
    simp
    omega

theorem strip_no_space {s : PyStr} (h : ∀ c ∈ s, pyIsSpace c = false) : pyStrip s = s := by
  have hl : pyLstrip s = s := by
    unfold pyLstrip
    cases s with
    | nil => rfl
    | cons c t => exact List.dropWhile_cons_of_neg (by simp [h c (List.mem_cons_self c t)])
  have hr : pyRstrip s = s := by
    unfold pyRstrip
    rw [show s.reverse.dropWhile pyIsSpace = s.reverse from ?_, List.reverse_reverse]
    cases hs : s.reverse with
    | nil => rfl
    | cons c t =>
      refine List.dropWhile_cons_of_neg ?_
      have : c ∈ s := by
        rw [← List.mem_reverse, hs]
        exact List.mem_cons_self c t
      simp [h c this]
  unfold pyStrip
  rw [hl, hr]

theorem strip_space_cons (s : PyStr) : pyStrip (' ' :: s) = pyStrip s := by
  unfold pyStrip pyLstrip
  rw [List.dropWhile_cons_of_pos (by decide)]

theorem digits_no_space {s : PyStr} (h : ∀ c ∈ s, c.isDigit = true) :
    ∀ c ∈ s, pyIsSpace c = false := by
  intro c hc
  have := h c hc
  revert this
  unfold Char.isDigit pyIsSpace
  intro hd
  rw [Bool.and_eq_true] at hd
  simp only [Bool.or_eq_false_iff]
  refine ⟨⟨⟨⟨⟨?_, ?_⟩, ?_⟩, ?_⟩, ?_⟩, ?_⟩ <;>
    (simp only [decide_eq_false_iff_not]; intro hceq; subst hceq; revert hd; decide)

theorem pyReprList_eq_map (l : List PyVal) : pyReprList l = l.map pyReprVal := by
  induction l with
  | nil => rfl
  | cons x xs ih => rw [pyReprList, ih, List.map_cons]

theorem pyJoin_comma_shape (r0 : PyStr) (rs : List PyStr) :
    rs ≠ [] → pyJoin (pstr ", ") (r0 :: rs)
      = r0 ++ ',' :: ' ' :: pyJoin (pstr ", ") rs := by
  intro h
  cases rs with
  | nil => exact absurd rfl h
  | cons r1 rt => simp [pyJoin, pstr]

theorem split_join_comma :
    ∀ (rs : List PyStr) (r0 : PyStr), ',' ∉ r0 → (∀ r ∈ rs, ',' ∉ r) →
      pySplitChar ',' (pyJoin (pstr ", ") (r0 :: rs))
        = r0 :: rs.map (fun r => ' ' :: r) := by
  intro rs
  induction rs with
  | nil =>
    intro r0 h0 _
    simp only [List.map_nil]
    exact pySplitChar_no_sep h0
  | cons r1 rt ih =>
    intro r0 h0 h
    rw [pyJoin_comma_shape r0 (r1 :: rt) (by simp)]
    rw [pySplitChar_append_cons h0]
    rw [pySplitChar_cons]
    have h1 : ',' ∉ r1 := h r1 (List.mem_cons_self r1 rt)
    have ht : ∀ r ∈ rt, ',' ∉ r := fun r hr => h r (List.mem_cons_of_mem r1 hr)
    rw [ih r1 h1 ht]
    dsimp only
    rw [if_neg (by decide), List.map_cons]

theorem exceptMapList_ok_of {α β : Type} {g : α → Except PyError β} {h : α → β} :
    ∀ {l : List α}, (∀ x ∈ l, g x = .ok (h x)) → exceptMapList g l = .ok (l.map h) := by
  intro l
  induction l with
  | nil => intro _; rfl
  | cons x xs ih =>
    intro hall
    unfold exceptMapList
    rw [hall x (List.mem_cons_self x xs), ih (fun y hy => hall y (List.mem_cons_of_mem x hy))]
    rfl

/-- The integer branch of `infer_datatype` on any nonempty digit string. -/
theorem inferFuel_digits {fuel : Nat} (hf : 0 < fuel) {s : PyStr} (hne : s ≠ [])
    (hd : ∀ c ∈ s, c.isDigit = true) :
    inferFuel fuel s = .ok (.tint, .vint (pyIntOfDigits s)) := by
  cases fuel with
  | zero => omega
  | succ f =>
    unfold inferFuel
    rw [if_pos (by
      rw [filter_ne_dot_of_digits hd]
      exact pyIsNumeric_of_digits hne hd)]
    rw [if_neg (fun hdot => by simpa using (digit_ne_special (hd '.' hdot)).1)]

theorem reprVal_safe_digits {x : PyVal} (hx : ∃ n : Int, x = .vint n ∧ 0 ≤ n) :
    (∀ c ∈ pyReprVal x, c.isDigit = true) ∧ pyReprVal x ≠ [] ∧
      PyVal.vint (pyIntOfDigits (pyReprVal x)) = x := by
  obtain ⟨n, rfl, hn⟩ := hx
  rw [pyReprVal_vint]
  unfold intRepr
  rw [if_neg (by omega)]
  refine ⟨natRepr_all_digits n.toNat, natRepr_ne_nil n.toNat, ?_⟩
  rw [pyIntOfDigits_natRepr]
  congr 1
  exact Int.toNat_of_nonneg hn

theorem infer_vlist {l : List PyVal} (hne : l ≠ [])
    (hl : ∀ x ∈ l, ∃ n : Int, x = .vint n ∧ 0 ≤ n) :
    infer_datatype (pyStrVal (.vlist l)) = .ok (.tlist, .vlist l) := by
  have hchars := pyStrVal_vlist_chars hl
  have hfilter : (pyStrVal (.vlist l)).filter (fun c => c ≠ '.') = pyStrVal (.vlist l) := by
    rw [List.filter_eq_self]
    intro c hc
    rcases hchars c hc with h | h | h | h | h
    · simpa using (digit_ne_special h).1
    all_goals (subst h; decide)
  have htake : (pyStrVal (.vlist l)).take 1 = ['['] := by rw [pyStrVal_vlist]; rfl
  have hlast : (pyStrVal (.vlist l)).getLast? = some ']' := by
    rw [pyStrVal_vlist]
    exact getLast?_append_singleton _ _
  have hmid : ((pyStrVal (.vlist l)).drop 1).dropLast = pyJoin (pstr ", ") (pyReprList l) := by
    rw [pyStrVal_vlist]
    show (pyJoin (pstr ", ") (pyReprList l) ++ [']']).dropLast = _
    exact dropLast_append_singleton _ _
  unfold infer_datatype
  unfold inferFuel
  rw [if_neg (by
    rw [hfilter, pyStrVal_vlist]
    unfold pyIsNumeric
    rw [List.cons_append, List.all_cons]
    simp)]
  rw [if_pos ⟨htake, hlast⟩]
  rw [hmid]
  -- decompose the list, split the joined reprs, strip, and parse each element
  cases l with
  | nil => exact absurd rfl hne
  | cons e0 es =>
    have hdig : ∀ r ∈ pyReprList (e0 :: es), (∀ c ∈ r, c.isDigit = true) ∧ r ≠ [] := by
      intro r hr
      rw [pyReprList_eq_map, List.mem_map] at hr
      obtain ⟨x, hx, rfl⟩ := hr
      obtain ⟨h1, h2, _⟩ := reprVal_safe_digits (hl x hx)
      exact ⟨h1, h2⟩
    have hsplit : pySplitChar ',' (pyJoin (pstr ", ") (pyReprList (e0 :: es)))
        = pyReprVal e0 :: (pyReprList es).map (fun r => ' ' :: r) := by
      rw [pyReprList]
      refine split_join_comma (pyReprList es) (pyReprVal e0) ?_ ?_
      · intro hmem
        have := (hdig (pyReprVal e0) (by rw [pyReprList]; exact List.mem_cons_self _ _)).1
          ',' hmem
        exact absurd this (by decide)
      · intro r hr hmem
        have := (hdig r (by rw [pyReprList]; exact List.mem_cons_of_mem _ hr)).1 ',' hmem
        exact absurd this (by decide)
    rw [hsplit]
    have hparts : (pyReprVal e0 :: (pyReprList es).map (fun r => ' ' :: r)).map pyStrip
        = pyReprVal e0 :: pyReprList es := by
      rw [List.map_cons]
      congr 1
      · exact strip_no_space (digits_no_space
          (hdig (pyReprVal e0) (by rw [pyReprList]; exact List.mem_cons_self _ _)).1)
      · rw [List.map_map]
        have : ∀ r ∈ pyReprList es, (pyStrip ∘ fun r => ' ' :: r) r = r := by
          intro r hr
          show pyStrip (' ' :: r) = r
          rw [strip_space_cons]
          exact strip_no_space (digits_no_space
            (hdig r (by rw [pyReprList]; exact List.mem_cons_of_mem _ hr)).1)
        rw [List.map_congr_left this]
        exact List.map_id' _
    rw [hparts]
    dsimp only
    have hml : exceptMapList
        (fun v => (inferFuel (pyStrVal (.vlist (e0 :: es))).length (pyStrip v)).map (fun x => x.2))
        (pyReprVal e0 :: pyReprList es)
        = .ok ((pyReprVal e0 :: pyReprList es).map (fun r => PyVal.vint (pyIntOfDigits r))) := by
      refine exceptMapList_ok_of ?_
      intro r hr
      obtain ⟨hrd, hrne⟩ := hdig r hr
      rw [strip_no_space (digits_no_space hrd)]
      rw [inferFuel_digits (by rw [pyStrVal_vlist]; simp) hrne hrd]
      rfl
    rw [hml]
    have hback : (pyReprVal e0 :: pyReprList es).map (fun r => PyVal.vint (pyIntOfDigits r))
        = e0 :: es := by
      rw [← pyReprList, pyReprList_eq_map, List.map_map]
      have : ∀ x ∈ e0 :: es, ((fun r => PyVal.vint (pyIntOfDigits r)) ∘ pyReprVal) x = x := by
        intro x hx
        exact (reprVal_safe_digits (hl x hx)).2.2
      rw [List.map_congr_left this]
      exact List.map_id' _
    rw [hback]

theorem decode_body {v : PyVal} (hv : SafeVal v) :
    ¬ heredocHead.isPrefixOf (if (bodyOf v).take 1 = ['"'] ∧ (bodyOf v).getLast? = some '"'
        then ((bodyOf v).drop 1).dropLast else bodyOf v) = true ∧
    ∃ t, infer_datatype (if (bodyOf v).take 1 = ['"'] ∧ (bodyOf v).getLast? = some '"'
        then ((bodyOf v).drop 1).dropLast else bodyOf v) = .ok (t, v) := by
  cases v with
  | vint n =>
    have hbody : bodyOf (.vint n) = natRepr n.toNat := by
      rw [show bodyOf (.vint n) = intRepr n from rfl]
      unfold intRepr
      rw [if_neg (by exact not_lt.mpr hv)]
    rw [hbody]
    cases hr : natRepr n.toNat with
    | nil => exact absurd hr (natRepr_ne_nil n.toNat)
    | cons d t =>
      have hd : d.isDigit = true := natRepr_all_digits n.toNat d
        (by rw [hr]; exact List.mem_cons_self d t)
      rw [if_neg (by
        intro hand
        have : d = '"' := by
          have := hand.1
          simpa using this
        rw [this] at hd
        exact Bool.noConfusion hd)]
      constructor
      · rw [heredocHead_eq]
        intro hpre
        simp only [pstr, List.isPrefixOf] at hpre
        rw [Bool.and_eq_true] at hpre
        have : '$' = d := by simpa using hpre.1
        rw [← this] at hd
        exact Bool.noConfusion hd
      · refine ⟨.tint, ?_⟩
        rw [← hr]
        unfold infer_datatype
        rw [inferFuel_digits (by omega) (natRepr_ne_nil n.toNat) (natRepr_all_digits n.toNat)]
        rw [pyIntOfDigits_natRepr]
        have : Int.ofNat n.toNat = n := Int.toNat_of_nonneg hv
        rw [this]
  | vstr s =>
    have hbody : bodyOf (.vstr s) = ('"' :: s) ++ ['"'] := rfl
    rw [hbody]
    rw [if_pos ⟨rfl, getLast?_append_singleton _ _⟩]
    have hstrip : (((('"' :: s) ++ ['"']).drop 1).dropLast : PyStr) = s := by
      rw [List.cons_append, List.drop_succ_cons, List.drop_zero]
      exact dropLast_append_singleton s '"'
    rw [hstrip]
    exact ⟨hv.2.1, ⟨.tstr, hv.2.2⟩⟩
  | vlist l =>
    have hbody : bodyOf (.vlist l) = ('"' :: pyStrVal (.vlist l)) ++ ['"'] := rfl
    rw [hbody]
    rw [if_pos ⟨rfl, getLast?_append_singleton _ _⟩]
    have hstrip : (((('"' :: pyStrVal (.vlist l)) ++ ['"']).drop 1).dropLast : PyStr)
        = pyStrVal (.vlist l) := by
      rw [List.cons_append, List.drop_succ_cons, List.drop_zero]
      exact dropLast_append_singleton _ '"'
    rw [hstrip]
    constructor
    · rw [pyStrVal_vlist, heredocHead_eq]
      intro hpre
      rw [List.cons_append] at hpre
      simp only [pstr, List.isPrefixOf] at hpre
      rw [Bool.and_eq_true] at hpre
      have : '$' = '[' := by simpa using hpre.1
      exact absurd this (by decide)
    · exact ⟨.tlist, infer_vlist hv.1 hv.2⟩
  | vfloat q => exact absurd hv (by simp [SafeVal])
  | vnone => exact absurd hv (by simp [SafeVal])

theorem parseLinesGo_encoded :
    ∀ (d : PyDict) (fuel : Nat) (m0 : PyDict),
      (∀ kv ∈ d, SafeKey kv.1 = true) → (∀ kv ∈ d, SafeVal kv.2) →
      d.length < fuel →
      parseLinesGo fuel (d.map (fun kv => kv.1 ++ '=' :: bodyOf kv.2)) m0
        = .ok (d.foldl (fun m kv => dictSet m kv.1 kv.2) m0) := by
  intro d
  induction d with
  | nil =>
    intro fuel m0 _ _ hf
    cases fuel with
    | zero => omega
    | succ f => rfl
  | cons kv rest ih =>
    intro fuel m0 hk hv hf
    obtain ⟨k, v⟩ := kv
    cases fuel with
    | zero => omega
    | succ f =>
      have hkk : SafeKey k = true := hk (k, v) (List.mem_cons_self _ _)
      have hvv : SafeVal v := hv (k, v) (List.mem_cons_self _ _)
      rw [List.map_cons]
      simp only [parseLinesGo]
      rw [pyFindAux_key (safeKey_no_eq hkk) (bodyOf v) 0]
      dsimp only
      rw [Nat.zero_add, List.take_left]
      have hdrop : (k ++ '=' :: bodyOf v).drop (k.length + 1) = bodyOf v := by
        have hshape : k ++ '=' :: bodyOf v = (k ++ ['=']) ++ bodyOf v := by simp
        have hlen : k.length + 1 = (k ++ ['=']).length := by simp
        rw [hshape, hlen, List.drop_left]
      rw [hdrop]
      obtain ⟨hherd, t, hinf⟩ := decode_body hvv
      rw [if_neg hherd, hinf]
      dsimp only
      rw [List.foldl_cons]
      exact ih f (dictSet m0 k v) (fun kv hm => hk kv (List.mem_cons_of_mem _ hm))
        (fun kv hm => hv kv (List.mem_cons_of_mem _ hm)) (by simpa using Nat.lt_of_succ_lt_succ hf)

/-! ## Claim C1: dictionary assignment and lookup -/

theorem find?_append_split {α : Type} (p : α → Bool) :
    ∀ (l1 l2 : List α), (l1 ++ l2).find? p
      = match l1.find? p with
        | some x => some x
        | none => l2.find? p := by
  intro l1 l2
  induction l1 with
  | nil => rfl
  | cons x xs ih =>
    rw [List.cons_append, List.find?_cons, List.find?_cons]
    cases hp : p x with
    | true => rfl
    | false => exact ih

theorem find?_append_none {α : Type} {p : α → Bool} {l1 l2 : List α}
    (h : l1.find? p = none) : (l1 ++ l2).find? p = l2.find? p := by
  rw [find?_append_split, h]

theorem find?_map_replace {k : PyStr} {v : PyVal} :
    ∀ (m : PyDict),
      (m.map (fun q => if q.1 = k then (k, v) else q)).find? (fun q => q.1 = k)
        = if (m.find? (fun q => q.1 = k)).isSome then some (k, v) else none := by
  intro m
  induction m with
  | nil => rfl
  | cons q t ih =>
    rw [List.map_cons, List.find?_cons, List.find?_cons]
    by_cases hq : q.1 = k
    · rw [if_pos hq]
      have h1 : (decide ((k, v).1 = k)) = true := by simp
      have h2 : (decide (q.1 = k)) = true := by simpa using hq
      rw [h1, h2]
      rfl
    · rw [if_neg hq]
      have hb : (decide (q.1 = k)) = false := by simpa using hq
      rw [hb]
      exact ih

theorem find?_map_replace_other {k k' : PyStr} {v : PyVal} (hne : k' ≠ k) :
    ∀ (m : PyDict),
      (m.map (fun q => if q.1 = k then (k, v) else q)).find? (fun q => q.1 = k')
        = m.find? (fun q => q.1 = k') := by
  intro m
  induction m with
  | nil => rfl
  | cons q t ih =>
    rw [List.map_cons, List.find?_cons, List.find?_cons]
    by_cases hq : q.1 = k
    · rw [if_pos hq]
      have h1 : (decide ((k, v).1 = k')) = false := by simp; exact fun h => hne h.symm
      have h2 : (decide (q.1 = k')) = false := by
        simp
        intro h
        exact absurd (hq ▸ h ▸ rfl : k' = k) hne
      rw [h1, h2]
      exact ih
    · rw [if_neg hq]
      cases hp : (decide (q.1 = k')) with
      | true => rfl
      | false => exact ih

theorem pyLookup_dictSet_self (m : PyDict) (k : PyStr) (v : PyVal) :
    pyLookup (dictSet m k v) k = some v := by
  unfold dictSet pyLookup
  split_ifs with h
  · rw [find?_map_replace, if_pos h]
    rfl
  · rw [Option.not_isSome_iff_eq_none] at h
    rw [find?_append_none h]
    simp [List.find?_cons]

theorem pyLookup_dictSet_other {k k' : PyStr} (hne : k' ≠ k) (m : PyDict) (v : PyVal) :
    pyLookup (dictSet m k v) k' = pyLookup m k' := by
  unfold dictSet pyLookup
  split_ifs with h
  · rw [find?_map_replace_other hne]
  · rw [find?_append_split]
    cases hf : List.find? (fun q => decide (q.1 = k')) m with
    | some x => rfl
    | none =>
      dsimp only
      rw [List.find?_cons]
      have hd : (decide ((k, v).1 = k')) = false := by simp; exact fun hh => hne hh.symm
      rw [hd]
      rfl

theorem pyLookup_foldl_skip :
    ∀ (rest : PyDict) (m : PyDict) (k : PyStr), k ∉ rest.map Prod.fst →
      pyLookup (rest.foldl (fun m kv => dictSet m kv.1 kv.2) m) k = pyLookup m k := by
  intro rest
  induction rest with
  | nil => intro m k _; rfl
  | cons kv t ih =>
    intro m k hk
    rw [List.foldl_cons]
    rw [List.map_cons, List.mem_cons] at hk
    rw [ih (dictSet m kv.1 kv.2) k (fun hm => hk (Or.inr hm))]
    exact pyLookup_dictSet_other (fun h => hk (Or.inl h)) m kv.2

theorem pyLookup_foldl_mem :
    ∀ (d : PyDict) (m0 : PyDict) (k : PyStr) (v : PyVal),
      (k, v) ∈ d → (d.map Prod.fst).Nodup →
      pyLookup (d.foldl (fun m kv => dictSet m kv.1 kv.2) m0) k = some v := by
  intro d
  induction d with
  | nil => intro _ _ _ h _; exact absurd h (List.not_mem_nil _)
  | cons kv rest ih =>
    intro m0 k v hmem hnodup
    rw [List.map_cons, List.nodup_cons] at hnodup
    rw [List.foldl_cons]
    rw [List.mem_cons] at hmem
    rcases hmem with rfl | hmem
    · rw [pyLookup_foldl_skip rest _ k hnodup.1]
      exact pyLookup_dictSet_self m0 k v
    · exact ih (dictSet m0 kv.1 kv.2) k v hmem hnodup.2

/-! ## Claim C1: assembling the round trip -/

theorem safeKey_no_newline {k : PyStr} (hk : SafeKey k = true) : '\n' ∉ k := by
  intro hmem
  unfold SafeKey at hk
  rw [List.all_eq_true] at hk
  have := hk '\n' hmem
  simp [pyCharIsAlnum, Char.isAlpha, Char.isUpper, Char.isLower, Char.isDigit] at this

theorem body_no_newline {v : PyVal} (hv : SafeVal v) : '\n' ∉ bodyOf v := by
  cases v with
  | vint n => exact safeVal_body_no_newline hv
  | vstr s =>
    intro hmem
    rw [show bodyOf (.vstr s) = ('"' :: s) ++ ['"'] from rfl] at hmem
    rw [List.mem_append, List.mem_cons] at hmem
    rcases hmem with (h | h) | h
    · exact absurd h (by decide)
    · exact hv.1 h
    · rw [List.mem_singleton] at h
      exact absurd h (by decide)
  | vlist l =>
    intro hmem
    rw [show bodyOf (.vlist l) = ('"' :: pyStrVal (.vlist l)) ++ ['"'] from rfl] at hmem
    rw [List.mem_append, List.mem_cons] at hmem
    rcases hmem with (h | h) | h
    · exact absurd h (by decide)
    · exact safeVal_body_no_newline hv h
    · rw [List.mem_singleton] at h
      exact absurd h (by decide)
  | vfloat q => exact absurd hv (by simp [SafeVal])
  | vnone => exact absurd hv (by simp [SafeVal])

theorem encodeLines_safe :
    ∀ (d : PyDict), (∀ kv ∈ d, SafeKey kv.1 = true) → (∀ kv ∈ d, SafeVal kv.2) →
      d.filterMap (fun kv => encodeEntry kv.1 kv.2)
        = d.map (fun kv => kv.1 ++ '=' :: bodyOf kv.2) := by
  intro d
  induction d with
  | nil => intro _ _; rfl
  | cons kv rest ih =>
    intro hk hv
    rw [List.filterMap_cons, List.map_cons]
    rw [encodeEntry_safe (hk kv (List.mem_cons_self _ _)) (hv kv (List.mem_cons_self _ _))]
    rw [ih (fun x hx => hk x (List.mem_cons_of_mem _ hx))
      (fun x hx => hv x (List.mem_cons_of_mem _ hx))]

theorem encoded_line_no_newline {k : PyStr} {v : PyVal}
    (hk : SafeKey k = true) (hv : SafeVal v) : '\n' ∉ (k ++ '=' :: bodyOf v) := by
  intro hmem
  rw [List.mem_append, List.mem_cons] at hmem
  rcases hmem with h | h | h
  · exact safeKey_no_newline hk h
  · exact absurd h (by decide)
  · exact body_no_newline hv h

theorem encoded_line_ne_marker {k : PyStr} {v : PyVal} :
    (k ++ '=' :: bodyOf v) ≠ pstr "EOMsg" := by
  intro h
  have hmem : '=' ∈ (k ++ '=' :: bodyOf v) := by
    rw [List.mem_append]
    exact Or.inr (List.mem_cons_self _ _)
  rw [h] at hmem
  exact absurd hmem (by decide)

theorem parseEnvContent_encoded {d : PyDict} (hne : d ≠ [])
    (hk : ∀ kv ∈ d, SafeKey kv.1 = true) (hv : ∀ kv ∈ d, SafeVal kv.2) :
    parseEnvContent (encodeContent d)
      = .ok (d.foldl (fun m kv => dictSet m kv.1 kv.2) []) := by
  unfold parseEnvContent encodeContent
  rw [encodeLines_safe d hk hv]
  have hlines_nl : ∀ x ∈ d.map (fun kv => kv.1 ++ '=' :: bodyOf kv.2), '\n' ∉ x := by
    intro x hx
    rw [List.mem_map] at hx
    obtain ⟨kv, hkv, rfl⟩ := hx
    exact encoded_line_no_newline (hk kv hkv) (hv kv hkv)
  have hlines_eo : ∀ x ∈ d.map (fun kv => kv.1 ++ '=' :: bodyOf kv.2), x ≠ pstr "EOMsg" := by
    intro x hx
    rw [List.mem_map] at hx
    obtain ⟨kv, hkv, rfl⟩ := hx
    exact encoded_line_ne_marker
  rw [pyReplace_noop _ hlines_nl hlines_eo]
  rw [pySplitChar_join _ (by simpa using hne) hlines_nl]
  rw [parseLinesGo_encoded d _ [] hk hv (by rw [List.length_map]; omega)]

theorem fsExists_write (fs : Fs) (p c : PyStr) : fsExists (fsWrite fs p c) p = true := by
  unfold fsExists fsWrite
  simp

theorem fsRead_write (fs : Fs) (p c : PyStr) : fsRead (fsWrite fs p c) p = .ok c := by
  unfold fsRead fsWrite
  simp [List.find?_cons]

/-- **C1 (amended).**  The save/load round trip reproduces every original
key and value — modulo the synthetic path key — for mappings whose keys are
strings of alphanumerics/underscores (so sanitization is the identity) with
no duplicates, and whose values are: non-negative integers, strings fixed by
the decoder (single-line, not starting with the here-document marker, and
mapped to themselves by `infer_datatype`), or nonempty lists of non-negative
integers.  The claim's unrestricted version is refuted by
`claim_C1_counterexample`: the string `"123"` decodes as the integer `123`. -/
theorem claim_C1 (fs : Fs) (template : PyStr) (d : PyDict) (pad : Nat) (p : PyStr) (fs2 : Fs)
    (hkeys : ∀ kv ∈ d, SafeKey kv.1 = true)
    (hnodup : (d.map Prod.fst).Nodup)
    (hvals : ∀ kv ∈ d, SafeVal kv.2)
    (hp : p ≠ [])
    (hsave : save_dict_as_envfile fs template d pad = (.ok p, fs2)) :
    ∃ m, load_envfile_to_dict fs2 p (pstr "latest") false = .ok m ∧
      ∀ kv ∈ d, pyLookup m kv.1 = some kv.2 := by
  have main : ∀ fs1 : Fs, fs2 = fsWrite fs1 p (encodeContent d) →
      ∃ m, load_envfile_to_dict fs2 p (pstr "latest") false = .ok m ∧
        ∀ kv ∈ d, pyLookup m kv.1 = some kv.2 := by
    intro fs1 hfs
    subst hfs
    unfold load_envfile_to_dict
    rw [if_neg (by simpa [List.isEmpty_iff] using hp)]
    dsimp only
    rw [fsExists_write, if_pos rfl]
    dsimp only
    rw [fsRead_write]
    by_cases hd : d = []
    · subst hd
      refine ⟨_, rfl, ?_⟩
      intro kv hkv
      exact absurd hkv (List.not_mem_nil kv)
    · dsimp only
      rw [parseEnvContent_encoded hd hkeys hvals]
      refine ⟨_, rfl, ?_⟩
      intro kv hkv
      rw [pyLookup_dictSet_other (safeKey_ne_synthKey (hkeys kv hkv)) _ _]
      exact pyLookup_foldl_mem d [] kv.1 kv.2 hkv hnodup
  unfold save_dict_as_envfile at hsave
  split_ifs at hsave with h1 h2
  · simp at hsave
  · split at hsave
    · simp at hsave
    · rw [Prod.mk.injEq] at hsave
      obtain ⟨hfin, hfs⟩ := hsave
      rw [Except.ok.injEq] at hfin
      exact main _ (by rw [← hfs, hfin])
  · dsimp only at hsave
    rw [Prod.mk.injEq] at hsave
    obtain ⟨hfin, hfs⟩ := hsave
    rw [Except.ok.injEq] at hfin
    exact main _ (by rw [← hfs, hfin])

/-- **C1 counterexample.**  Saving the mapping `{"A": "123"}` (a *string*
value, containing no EOMsg line) and loading it back yields the *integer*
`123`, not the original string: the unrestricted round-trip claim fails. -/
theorem claim_C1_counterexample :
    (load_envfile_to_dict
        (save_dict_as_envfile { dirs := [pstr "/tmp"], files := [] } (pstr "/tmp/data.sh")
          [(pstr "A", .vstr (pstr "123"))]).2
        (pstr "/tmp/data.sh")).map (fun m => pyLookup m (pstr "A"))
      = .ok (some (.vint 123)) ∧ PyVal.vint 123 ≠ PyVal.vstr (pstr "123") :=
  ⟨rfl, fun h => PyVal.noConfusion h⟩

/-- Closed witness for `claim_C1` on a concrete mapping with an integer, a
string and a list value. -/
theorem claim_C1_witness :
    ∃ m, load_envfile_to_dict
        (save_dict_as_envfile { dirs := [pstr "/tmp"], files := [] } (pstr "/tmp/rt.sh")
          [(pstr "A", .vint 7), (pstr "B", .vstr (pstr "hi")),
           (pstr "L", .vlist [.vint 1, .vint 2])] 6).2
        (pstr "/tmp/rt.sh") (pstr "latest") false = .ok m ∧
      ∀ kv ∈ ([(pstr "A", PyVal.vint 7), (pstr "B", .vstr (pstr "hi")),
               (pstr "L", .vlist [.vint 1, .vint 2])] : PyDict),
        pyLookup m kv.1 = some kv.2 := by
  refine claim_C1 { dirs := [pstr "/tmp"], files := [] } (pstr "/tmp/rt.sh")
    [(pstr "A", .vint 7), (pstr "B", .vstr (pstr "hi")),
     (pstr "L", .vlist [.vint 1, .vint 2])] 6 (pstr "/tmp/rt.sh") _ ?_ ?_ ?_ ?_ rfl
  · intro kv hkv
    rw [List.mem_cons, List.mem_cons, List.mem_cons] at hkv
    rcases hkv with rfl | rfl | rfl | h
    · decide
    · decide
    · decide
    · exact absurd h (List.not_mem_nil kv)
  · decide
  · intro kv hkv
    rw [List.mem_cons, List.mem_cons, List.mem_cons] at hkv
    rcases hkv with rfl | rfl | rfl | h
    · show (0 : Int) ≤ 7
      decide
    · exact ⟨by decide, by decide, rfl⟩
    · refine ⟨by simp, ?_⟩
      intro x hx
      rw [List.mem_cons, List.mem_cons] at hx
      rcases hx with rfl | rfl | h
      · exact ⟨1, rfl, by decide⟩
      · exact ⟨2, rfl, by decide⟩
      · exact absurd h (List.not_mem_nil x)
    · exact absurd h (List.not_mem_nil kv)
  · decide
